import Mathlib

/-!
# WioLTE driver: line framing, command channel, power sequencing

A shallow embedding of `src/WioLTE.cpp`.

The device handle and its collaborators (UART, millisecond clock, GPIO) are one explicit
`State` value that every operation takes and returns.

* Time is the millisecond counter `now`.  A turn of a busy-wait loop that finds nothing to
  do moves the counter on by one millisecond (`spin`); `delay n` moves it on by `n`; every
  other statement takes no time.  The counter is an unbounded natural number (the 32-bit
  wrap after 49 days is not modelled).
* The UART receive side is an arrival schedule `rx`: the bytes still to be read, in order,
  each with the millisecond at which it becomes available and the value `read()` will
  return for it (negative for an invalid read).
* The UART transmit side is the list `tx` of bytes written so far.
* `char` values are integers; a C string argument is a list of `char` values read up to its
  first NUL (`cstr`), the end of the list standing for the terminator.
* Loops take a `fuel` argument and return `none` when it runs out; the theorems show that
  enough fuel always gives a result.
* The diagnostic output on `SerialUSB` (`DebugPrint`, the heartbeat dots) does not touch the
  UART, the clock or the pins and is left out.
-/

namespace WioLTE

set_option maxRecDepth 100000

/-! ## Collaborators -/

/-- The GPIO lines named in `WioLTE.cpp` (their numbers are in the header). -/
inductive Pin where
  | MODULE_PWR_PIN
  | ANT_PWR_PIN
  | ENABLE_VCCB_PIN
  | PWR_KEY_PIN
  | RESET_MODULE_PIN
  | STATUS_PIN
  | WAKEUP_IN_PIN
  | WAKEUP_DISABLE_PIN
  deriving DecidableEq, Repr

/-- Arduino `LOW`. -/
def LOW : Int := 0

/-- Arduino `HIGH`. -/
def HIGH : Int := 1

/-- The device handle (`_Timeout`) together with the state of its collaborators. -/
structure State where
  /-- The member `_Timeout`: the active timeout in milliseconds (`long`). -/
  _Timeout : Int
  /-- The value of `millis()`. -/
  now : Nat
  /-- Bytes not yet read from `_Serial`: (millisecond of arrival, value `read()` returns). -/
  rx : List (Nat × Int)
  /-- Bytes written to `_Serial`, oldest first. -/
  tx : List Int
  /-- Arguments of the calls `_Serial->setTimeout(..)`, oldest first. -/
  serialTimeouts : List Int
  /-- The calls `digitalWrite(pin, value)`, oldest first. -/
  pinWrites : List (Pin × Int)
  /-- What the coming calls `digitalRead(STATUS_PIN)` return, one entry per call. -/
  statusReads : List Int
  /-- What `digitalRead(STATUS_PIN)` returns once `statusReads` is used up. -/
  statusRest : Int
  deriving DecidableEq, Repr

/-- A turn of a busy-wait loop that found nothing to do: one millisecond later. -/
def spin (s : State) : State := { s with now := s.now + 1 }

/-- Arduino `delay(ms)`. -/
def delay (ms : Nat) (s : State) : State := { s with now := s.now + ms }

/-- Arduino `digitalWrite(pin, value)`. -/
def digitalWrite (pin : Pin) (value : Int) (s : State) : State :=
  { s with pinWrites := s.pinWrites ++ [(pin, value)] }

/-- Arduino `digitalRead(STATUS_PIN)`: the next sample of the status line. -/
def digitalReadStatus (s : State) : Int × State :=
  match s.statusReads with
  | [] => (s.statusRest, s)
  | v :: rest => (v, { s with statusReads := rest })

/-- The call `_Serial->available()`: how many bytes have arrived and are unread. -/
def available (s : State) : Nat :=
  match s.rx with
  | [] => 0
  | (t, _) :: rest => if t ≤ s.now then 1 + (rest.takeWhile (fun p => p.1 ≤ s.now)).length else 0

/-- The call `_Serial->read()`: the next byte, or -1 when none has arrived. -/
def read (s : State) : Int × State :=
  match s.rx with
  | [] => (-1, s)
  | (t, c) :: rest => if t ≤ s.now then (c, { s with rx := rest }) else (-1, s)

/-- The bytes of a C string: everything before the first NUL. -/
def cstr (p : List Int) : List Int := p.takeWhile (fun c => c ≠ 0)

/-- The call `_Serial->write(str)` for a C string. -/
def serialWriteStr (str : List Int) (s : State) : State := { s with tx := s.tx ++ cstr str }

/-- The call `_Serial->write(c)` for one character. -/
def serialWriteChar (c : Int) (s : State) : State := { s with tx := s.tx ++ [c] }

/-- C `strcmp`: zero exactly when the two C strings have the same bytes. -/
def strcmp : List Int → List Int → Int
  | [], [] => 0
  | [], b :: _ => 0 - b
  | a :: _, [] => a
  | a :: as, b :: bs => if a = b then (if a = 0 then 0 else strcmp as bs) else a - b

/-- Modelled from the spec: the class `Stopwatch` is declared outside `WioLTE.cpp`.  The spec
describes it as "started at the beginning of a bounded wait; read-only elapsed query":
`Start` records the clock, `ElapsedMilliseconds` is the clock minus the recorded value.
Where the source compares the elapsed time with the `long` member `_Timeout`, both are
compared as integers. -/
structure Stopwatch where
  beginTime : Nat
  deriving DecidableEq, Repr

/-- The call `sw.Start()`. -/
def Stopwatch.Start (s : State) : Stopwatch := ⟨s.now⟩

/-- The call `sw.ElapsedMilliseconds()`. -/
def Stopwatch.ElapsedMilliseconds (sw : Stopwatch) (s : State) : Nat := s.now - sw.beginTime

/-! ## LineReader -/

/-- `#define MODULE_RESPONSE_MAX_SIZE (100)` -/
def MODULE_RESPONSE_MAX_SIZE : Nat := 100

/-- `WioLTE::DiscardRead`: `while (_Serial->available()) _Serial->read();` -/
def DiscardRead : Nat → State → Option State
  | 0, _ => none
  | fuel + 1, s => if available s ≠ 0 then DiscardRead fuel (read s).2 else some s

/-- `WioLTE::SetTimeout`. -/
def SetTimeout (timeout : Int) (s : State) : State :=
  { s with _Timeout := timeout, serialTimeouts := s.serialTimeouts ++ [timeout] }

/-- The four ways `ReadLine` returns.  The C++ function returns `true` on the first and
`false` on the other three (its comments call them "Timeout", "No data" and "Overflow"). -/
inductive ReadResult where
  | Complete
  | Timeout
  | StreamError
  | Overflow
  deriving DecidableEq, Repr

/-- The `bool` that `ReadLine` returns. -/
def ReadResult.toBool : ReadResult → Bool
  | .Complete => true
  | _ => false

/-- What a call of `ReadLine` leaves behind. -/
structure ReadLineReturn where
  /-- Which `return` was taken. -/
  result : ReadResult
  /-- The buffer `data` after the call. -/
  data : List Int
  /-- The final value of the local `dataIndex`. -/
  dataIndex : Nat
  /-- The indices `i` of all stores `data[i] = ..` of the call, oldest first. -/
  stores : List Nat
  /-- The device state after the call. -/
  state : State
  deriving DecidableEq, Repr

/-- The inner loop of `ReadLine`:
`while (!_Serial->available()) { if (sw.ElapsedMilliseconds() > _Timeout) <return false> }`.
The result is `true` when the loop was left with a byte available and `false` when the
timeout branch was taken. -/
def awaitAvailable : Nat → Stopwatch → State → Option (Bool × State)
  | 0, _, _ => none
  | fuel + 1, sw, s =>
    if available s = 0 then
      if (sw.ElapsedMilliseconds s : Int) > s._Timeout then some (false, s)
      else awaitAvailable fuel sw (spin s)
    else some (true, s)

/-- The outer loop of `ReadLine`, from the test `dataIndex < dataSize - 1` on.  A store
`data[i] = v` is `data.set i v` and is recorded in `stores`; storing the `int c` narrows it
to `char`, here `c % 256` (`char` is unsigned on the ARM target). -/
def ReadLine.loop : Nat → State → List Int → Int → Nat → List Nat → Option ReadLineReturn
  | 0, _, _, _, _, _ => none
  | fuel + 1, s, data, dataSize, dataIndex, stores =>
    if (dataIndex : Int) < dataSize - 1 then
      match awaitAvailable fuel (Stopwatch.Start s) s with
      | none => none
      | some (false, s1) =>
        some ⟨.Timeout, data.set dataIndex 0, dataIndex, stores ++ [dataIndex], s1⟩
      | some (true, s1) =>
        let c := (read s1).1
        let s2 := (read s1).2
        if c < 0 then
          some ⟨.StreamError, data.set dataIndex 0, dataIndex, stores ++ [dataIndex], s2⟩
        else if c = 13 then ReadLine.loop fuel s2 data dataSize dataIndex stores
        else if c = 10 then
          some ⟨.Complete, data.set dataIndex 0, dataIndex, stores ++ [dataIndex], s2⟩
        else
          ReadLine.loop fuel s2 (data.set dataIndex (c % 256)) dataSize (dataIndex + 1)
            (stores ++ [dataIndex])
    else if (dataIndex : Int) < dataSize then
      some ⟨.Overflow, data.set dataIndex 0, dataIndex, stores ++ [dataIndex], s⟩
    else some ⟨.Overflow, data, dataIndex, stores, s⟩

/-- `WioLTE::ReadLine(char* data, int dataSize)`. -/
def ReadLine (fuel : Nat) (s : State) (data : List Int) (dataSize : Int) : Option ReadLineReturn :=
  ReadLine.loop fuel s data dataSize 0 []

/-! ## CommandChannel -/

/-- `WioLTE::Write`. -/
def Write (str : List Int) (s : State) : State := serialWriteStr str s

/-- `WioLTE::WriteCommand`. -/
def WriteCommand (command : List Int) (s : State) : State :=
  serialWriteChar 13 (serialWriteStr command s)

/-- The `do .. while (strcmp(data, response) != 0)` loop of `WaitForResponse`; `data` is the
local buffer, which keeps its content from one turn to the next. -/
def WaitForResponse.loop : Nat → List Int → List Int → State → Option (Bool × State)
  | 0, _, _, _ => none
  | fuel + 1, response, data, s =>
    match ReadLine fuel s data MODULE_RESPONSE_MAX_SIZE with
    | none => none
    | some r =>
      if r.result.toBool = false then some (false, r.state)
      else if strcmp r.data response ≠ 0 then WaitForResponse.loop fuel response r.data r.state
      else some (true, r.state)

/-- `WioLTE::WaitForResponse(const char* response)`.  The local `char data[100]` is not
initialised in the source; it starts here as zeros, and `WaitForResponse_buffer` shows that
every other initial content gives the same result. -/
def WaitForResponse (fuel : Nat) (response : List Int) (s : State) : Option (Bool × State) :=
  WaitForResponse.loop fuel response (List.replicate MODULE_RESPONSE_MAX_SIZE 0) s

/-- `WioLTE::WaitForResponse(const char* response, long timeout)`. -/
def WaitForResponseT (fuel : Nat) (response : List Int) (timeout : Int) (s : State) :
    Option (Bool × State) :=
  let preTimeout := s._Timeout
  match WaitForResponse fuel response (SetTimeout timeout s) with
  | none => none
  | some (result, s1) => some (result, SetTimeout preTimeout s1)

/-- `WioLTE::WriteCommandAndWaitForResponse(command, response)`. -/
def WriteCommandAndWaitForResponse (fuel : Nat) (command response : List Int) (s : State) :
    Option (Bool × State) :=
  WaitForResponse fuel response (WriteCommand command s)

/-- `WioLTE::WriteCommandAndWaitForResponse(command, response, timeout)`. -/
def WriteCommandAndWaitForResponseT (fuel : Nat) (command response : List Int) (timeout : Int)
    (s : State) : Option (Bool × State) :=
  WaitForResponseT fuel response timeout (WriteCommand command s)

/-! ## PowerSequencer -/

/-- The string literal `"RDY"`. -/
def RDY : List Int := [82, 68, 89]

/-- The string literal `"OK"`. -/
def OK : List Int := [79, 75]

/-- The loop `while (!WaitForResponse("RDY", 100)) { if (sw.ElapsedMilliseconds() >= 10000)
return false; }` that ends both `Reset` and `TurnOn`; the result is what the function then
returns. -/
def awaitReady : Nat → Stopwatch → State → Option (Bool × State)
  | 0, _, _ => none
  | fuel + 1, sw, s =>
    match WaitForResponseT fuel RDY 100 s with
    | none => none
    | some (true, s1) => some (true, s1)
    | some (false, s1) =>
      if sw.ElapsedMilliseconds s1 ≥ 10000 then some (false, s1) else awaitReady fuel sw s1

/-- `WioLTE::Reset`. -/
def Reset (fuel : Nat) (s : State) : Option (Bool × State) :=
  let s1 := digitalWrite .RESET_MODULE_PIN LOW s
  let s2 := delay 200 s1
  let s3 := digitalWrite .RESET_MODULE_PIN HIGH s2
  let s4 := delay 300 s3
  awaitReady fuel (Stopwatch.Start s4) s4

/-- `WioLTE::IsBusy`. -/
def IsBusy (s : State) : Bool × State :=
  (if (digitalReadStatus s).1 ≠ 0 then true else false, (digitalReadStatus s).2)

/-- The loop `while (IsBusy()) { if (sw.ElapsedMilliseconds() >= 5000) return false;
delay(100); }` of `TurnOn`; the result is `true` when the loop was left because the status
line read inactive, `false` when `return false` was taken. -/
def awaitNotBusy : Nat → Stopwatch → State → Option (Bool × State)
  | 0, _, _ => none
  | fuel + 1, sw, s =>
    if (IsBusy s).1 then
      if sw.ElapsedMilliseconds (IsBusy s).2 ≥ 5000 then some (false, (IsBusy s).2)
      else awaitNotBusy fuel sw (delay 100 (IsBusy s).2)
    else some (true, (IsBusy s).2)

/-- `WioLTE::TurnOn`. -/
def TurnOn (fuel : Nat) (s : State) : Option (Bool × State) :=
  let s1 := delay 100 s
  let s2 := digitalWrite .PWR_KEY_PIN HIGH s1
  let s3 := delay 200 s2
  let s4 := digitalWrite .PWR_KEY_PIN LOW s3
  match awaitNotBusy fuel (Stopwatch.Start s4) s4 with
  | none => none
  | some (false, s5) => some (false, s5)
  | some (true, s5) => awaitReady fuel (Stopwatch.Start s5) s5

/-! ## ScriptedExchange -/

/-- The string literal `"AT+CMGF=1"`. -/
def AT_CMGF_1 : List Int := [65, 84, 43, 67, 77, 71, 70, 61, 49]

/-- The result of `sprintf(str, "AT+CMGS=\"%s\"", dialNumber)`. -/
def AT_CMGS (dialNumber : List Int) : List Int :=
  [65, 84, 43, 67, 77, 71, 83, 61, 34] ++ cstr dialNumber ++ [34]

/-- `WioLTE::SendSMS`. -/
def SendSMS (fuel : Nat) (dialNumber message : List Int) (s : State) : Option (Bool × State) :=
  match WriteCommandAndWaitForResponseT fuel AT_CMGF_1 OK 500 s with
  | none => none
  | some (false, s1) => some (false, s1)
  | some (true, s1) =>
    match WriteCommandAndWaitForResponseT fuel (AT_CMGS dialNumber) [] 500 s1 with
    | none => none
    | some (false, s2) => some (false, s2)
    | some (true, s2) =>
      let s3 := Write message s2
      let s4 := Write [26] s3
      match WaitForResponseT fuel OK 120000 s4 with
      | none => none
      | some (false, s5) => some (false, s5)
      | some (true, s5) => some (true, s5)

/-! ## A big-step reading of the `ReadLine` loop (used in the proofs) -/

/-- The byte arriving at millisecond `t` is taken by the inner wait that starts at `s.now`:
it is already there, or it arrives no later than the first millisecond at which the
stopwatch reads more than `_Timeout`. -/
def inTime (s : State) (t : Nat) : Prop := t ≤ s.now ∨ (t : Int) ≤ s.now + s._Timeout + 1

instance (s : State) (t : Nat) : Decidable (inTime s t) := by
  unfold inTime; infer_instance

/-- The state once the head byte, which arrives at `t`, has been waited for and read. -/
def afterRead (s : State) (t : Nat) (rest : List (Nat × Int)) : State :=
  { s with now := max s.now t, rx := rest }

/-- The runs of the outer loop of `ReadLine`, one rule per path through its body;
`ReadLine.loop_sound` shows that every result of `ReadLine.loop` is such a run. -/
inductive LineRun (dataSize : Int) : State → List Int → Nat → List Nat → ReadLineReturn → Prop
  | overflow (s : State) (data : List Int) (dataIndex : Nat) (stores : List Nat) :
      ¬ (dataIndex : Int) < dataSize - 1 → (dataIndex : Int) < dataSize →
      LineRun dataSize s data dataIndex stores
        ⟨.Overflow, data.set dataIndex 0, dataIndex, stores ++ [dataIndex], s⟩
  | overflowNoStore (s : State) (data : List Int) (dataIndex : Nat) (stores : List Nat) :
      ¬ (dataIndex : Int) < dataSize - 1 → ¬ (dataIndex : Int) < dataSize →
      LineRun dataSize s data dataIndex stores ⟨.Overflow, data, dataIndex, stores, s⟩
  | timeout (s : State) (data : List Int) (dataIndex : Nat) (stores : List Nat) (n1 : Nat) :
      (dataIndex : Int) < dataSize - 1 →
      (n1 : Int) = max (s.now : Int) (s.now + s._Timeout + 1) →
      (∀ t c rest, s.rx = (t, c) :: rest → n1 < t) →
      LineRun dataSize s data dataIndex stores
        ⟨.Timeout, data.set dataIndex 0, dataIndex, stores ++ [dataIndex], { s with now := n1 }⟩
  | streamError (s : State) (data : List Int) (dataIndex : Nat) (stores : List Nat)
      (t : Nat) (c : Int) (rest : List (Nat × Int)) :
      (dataIndex : Int) < dataSize - 1 → s.rx = (t, c) :: rest → inTime s t → c < 0 →
      LineRun dataSize s data dataIndex stores
        ⟨.StreamError, data.set dataIndex 0, dataIndex, stores ++ [dataIndex], afterRead s t rest⟩
  | carriageReturn (s : State) (data : List Int) (dataIndex : Nat) (stores : List Nat)
      (t : Nat) (rest : List (Nat × Int)) (r : ReadLineReturn) :
      (dataIndex : Int) < dataSize - 1 → s.rx = (t, 13) :: rest → inTime s t →
      LineRun dataSize (afterRead s t rest) data dataIndex stores r →
      LineRun dataSize s data dataIndex stores r
  | lineFeed (s : State) (data : List Int) (dataIndex : Nat) (stores : List Nat)
      (t : Nat) (rest : List (Nat × Int)) :
      (dataIndex : Int) < dataSize - 1 → s.rx = (t, 10) :: rest → inTime s t →
      LineRun dataSize s data dataIndex stores
        ⟨.Complete, data.set dataIndex 0, dataIndex, stores ++ [dataIndex], afterRead s t rest⟩
  | store (s : State) (data : List Int) (dataIndex : Nat) (stores : List Nat)
      (t : Nat) (c : Int) (rest : List (Nat × Int)) (r : ReadLineReturn) :
      (dataIndex : Int) < dataSize - 1 → s.rx = (t, c) :: rest → inTime s t →
      0 ≤ c → c ≠ 13 → c ≠ 10 →
      LineRun dataSize (afterRead s t rest) (data.set dataIndex (c % 256)) (dataIndex + 1)
        (stores ++ [dataIndex]) r →
      LineRun dataSize s data dataIndex stores r

/-- The buffer after the stores `data[i] = v₀; data[i+1] = v₁; ..` -/
def storeAt : List Int → Nat → List Int → List Int
  | data, _, [] => data
  | data, i, v :: vs => storeAt (data.set i v) (i + 1) vs

/-- The bytes of a stretch of the schedule that `ReadLine` keeps: all but carriage returns. -/
def kept (pre : List (Nat × Int)) : List Int := (pre.map Prod.snd).filter (fun c => c ≠ 13)

/-- The clock after waiting for and reading every byte of a stretch of the schedule. -/
def clockAfter (now : Nat) (pre : List (Nat × Int)) : Nat := pre.foldl (fun n p => max n p.1) now

/-- A small device state for the worked instances: timeout 3 ms, clock at 0, nothing pending. -/
def demo : State :=
  { _Timeout := 3, now := 0, rx := [], tx := [], serialTimeouts := [], pinWrites := [],
    statusReads := [], statusRest := 1 }

/-- Each byte of a stretch of the schedule arrives in time for the wait that starts when the
byte before it has been read (for the first byte: at `now`), i.e. it is already there or
arrives at most `timeout + 1` ms after that moment. -/
def inTimeChain (timeout : Int) : Nat → List (Nat × Int) → Prop
  | _, [] => True
  | now, (t, _) :: rest =>
    (t ≤ now ∨ (t : Int) ≤ now + timeout + 1) ∧ inTimeChain timeout (max now t) rest

/-- Whether a stretch of the schedule is chained in time can be computed. -/
instance inTimeChain.decide (timeout : Int) :
    (now : Nat) → (pre : List (Nat × Int)) → Decidable (inTimeChain timeout now pre)
  | _, [] => isTrue trivial
  | now, (t, _) :: rest =>
    have := inTimeChain.decide timeout (max now t) rest
    inferInstanceAs (Decidable ((t ≤ now ∨ (t : Int) ≤ now + timeout + 1) ∧
      inTimeChain timeout (max now t) rest))

/-- From the words of the spec ("the decoded line excludes any `\r` bytes and excludes the
terminator itself"): the complete lines of a byte stream, i.e. its stretches ended by a line
feed, without the carriage returns and without the line feed; `cur` is the line begun. -/
def streamLines : List Int → List Int → List (List Int)
  | _, [] => []
  | cur, c :: cs =>
    if c = 10 then cur :: streamLines [] cs
    else if c = 13 then streamLines cur cs
    else streamLines (cur ++ [c]) cs

/-- The lines that successive calls of `ReadLine` on the 100-byte buffer deliver (each read
as a C string) up to the first call that does not return `true`. -/
def receivedLines : Nat → List Int → State → List (List Int)
  | 0, _, _ => []
  | fuel + 1, data, s =>
    match ReadLine fuel s data MODULE_RESPONSE_MAX_SIZE with
    | none => []
    | some r => if r.result.toBool = false then [] else cstr r.data :: receivedLines fuel r.data r.state

/-- A stream with a 99-byte line of `a` followed by the line `OK`, all there at ms 0. -/
def longLineThenOK : State :=
  { demo with rx := (List.replicate 99 97 ++ [10, 79, 75, 10]).map (fun c => (0, c)) }

/-- A stream with the single line `O K NUL X`, all there at ms 0. -/
def lineWithNul : State :=
  { demo with rx := [(0, 79), (0, 75), (0, 0), (0, 88), (0, 10)] }

/-- The sample that the `k`-th coming call of `digitalRead(STATUS_PIN)` returns (from 0). -/
def statusSample (s : State) (k : Nat) : Int := s.statusReads.getD k s.statusRest

/-- The state in which `TurnOn` leaves its busy loop after `k` polls that read busy and one
more poll: the settle delay, the power-key pulse, `k` delays of 100 ms, `k + 1` samples
used. -/
def afterPolls (s : State) (k : Nat) : State :=
  { s with now := s.now + 300 + 100 * k,
           pinWrites := s.pinWrites ++ [(.PWR_KEY_PIN, HIGH), (.PWR_KEY_PIN, LOW)],
           statusReads := s.statusReads.drop (k + 1) }

/-- What of a `ReadLine` result does not depend on what the buffer held before the call. -/
def ReadLineReturn.visible (r : ReadLineReturn) :
    ReadResult × Nat × List Nat × State × List Int × Nat :=
  (r.result, r.dataIndex, r.stores, r.state, r.data.take (r.dataIndex + 1), r.data.length)

theorem available_nil {s : State} (h : s.rx = []) : available s = 0 := by
  simp [available, h]

theorem available_cons {s : State} {t : Nat} {c : Int} {rest : List (Nat × Int)}
    (h : s.rx = (t, c) :: rest) : available s = 0 ↔ s.now < t := by
  simp only [available, h]
  split <;> omega

theorem read_cons {s : State} {t : Nat} {c : Int} {rest : List (Nat × Int)}
    (h : s.rx = (t, c) :: rest) (ht : t ≤ s.now) : read s = (c, { s with rx := rest }) := by
  simp [read, h, ht]

/-- What the inner wait loop returns: either the head byte of the schedule, read at the
later of the current time and its arrival, or the timeout, taken at the first millisecond at
which the stopwatch reads more than the active timeout. -/
theorem awaitAvailable_spec (fuel : Nat) (sw : Stopwatch) (s : State) (b : Bool) (s1 : State)
    (h : awaitAvailable fuel sw s = some (b, s1)) (hb : sw.beginTime ≤ s.now) :
    s1 = { s with now := s1.now } ∧
    ((b = true ∧ ∃ t c rest, s.rx = (t, c) :: rest ∧ s1.now = max s.now t ∧
        (t ≤ s.now ∨ (t : Int) ≤ sw.beginTime + s._Timeout + 1)) ∨
     (b = false ∧ (s1.now : Int) = max (s.now : Int) (sw.beginTime + s._Timeout + 1) ∧
        ∀ t c rest, s.rx = (t, c) :: rest → s1.now < t)) := by
  induction fuel generalizing s with
  | zero => simp [awaitAvailable] at h
  | succ fuel ih =>
    rw [awaitAvailable] at h
    by_cases hav : available s = 0
    · rw [if_pos hav] at h
      by_cases hel : (sw.ElapsedMilliseconds s : Int) > s._Timeout
      · rw [if_pos hel] at h
        simp only [Option.some.injEq, Prod.mk.injEq] at h
        obtain ⟨rfl, rfl⟩ := h
        refine ⟨rfl, Or.inr ⟨rfl, ?_, ?_⟩⟩
        · simp only [Stopwatch.ElapsedMilliseconds] at hel
          omega
        · intro t c rest hrx
          exact (available_cons hrx).1 hav
      · rw [if_neg hel] at h
        simp only [Stopwatch.ElapsedMilliseconds] at hel
        have hb1 : sw.beginTime ≤ (spin s).now := by simp [spin]; omega
        obtain ⟨hs1, hcase⟩ := ih (spin s) h hb1
        refine ⟨?_, ?_⟩
        · rw [hs1]; simp [spin]
        · rcases hcase with ⟨hbt, t, c, rest, hrx, hnow, htime⟩ | ⟨hbf, hnow, hq⟩
          · left
            refine ⟨hbt, t, c, rest, hrx, ?_, ?_⟩
            · have := (available_cons (s := s) hrx).1 hav
              simp only [spin] at hnow
              omega
            · simp only [spin] at htime
              right
              rcases htime with h1 | h2
              · omega
              · exact h2
          · right
            refine ⟨hbf, ?_, hq⟩
            simp only [spin] at hnow
            push_cast at hnow
            omega
    · rw [if_neg hav] at h
      simp only [Option.some.injEq, Prod.mk.injEq] at h
      obtain ⟨rfl, rfl⟩ := h
      refine ⟨rfl, Or.inl ⟨rfl, ?_⟩⟩
      match hrx : s.rx with
      | [] => exact absurd (available_nil hrx) hav
      | (t, c) :: rest =>
        have : ¬ s.now < t := fun hlt => hav ((available_cons hrx).2 hlt)
        exact ⟨t, c, rest, rfl, by omega, Or.inl (by omega)⟩

/-- The inner wait loop returns once the fuel exceeds the milliseconds left on the stopwatch. -/
theorem awaitAvailable_total (fuel : Nat) (sw : Stopwatch) (s : State)
    (hf : (sw.beginTime + s._Timeout + 1 - s.now).toNat < fuel) :
    ∃ r, awaitAvailable fuel sw s = some r := by
  induction fuel generalizing s with
  | zero => omega
  | succ fuel ih =>
    rw [awaitAvailable]
    by_cases hav : available s = 0
    · rw [if_pos hav]
      by_cases hel : (sw.ElapsedMilliseconds s : Int) > s._Timeout
      · rw [if_pos hel]; exact ⟨_, rfl⟩
      · rw [if_neg hel]
        apply ih
        simp only [Stopwatch.ElapsedMilliseconds] at hel
        simp only [spin]
        push_cast
        omega
    · rw [if_neg hav]; exact ⟨_, rfl⟩

/-! ## Lemmas: the `ReadLine` loop -/

/-- Every result of the `ReadLine` loop is a run of the big-step reading. -/
theorem ReadLine.loop_sound (fuel : Nat) (dataSize : Int) (s : State) (data : List Int)
    (dataIndex : Nat) (stores : List Nat) (r : ReadLineReturn)
    (h : ReadLine.loop fuel s data dataSize dataIndex stores = some r) :
    LineRun dataSize s data dataIndex stores r := by
  induction fuel generalizing s data dataIndex stores with
  | zero => simp [ReadLine.loop] at h
  | succ fuel ih =>
    rw [ReadLine.loop] at h
    by_cases hlt : (dataIndex : Int) < dataSize - 1
    · rw [if_pos hlt] at h
      match hw : awaitAvailable fuel (Stopwatch.Start s) s with
      | none => simp [hw] at h
      | some (false, s1) =>
        simp only [hw, Option.some.injEq] at h
        obtain ⟨hs1, hcase⟩ := awaitAvailable_spec _ _ _ _ _ hw (le_refl _)
        rcases hcase with ⟨hbt, _⟩ | ⟨_, hnow, hq⟩
        · simp at hbt
        · subst h
          rw [hs1]
          exact LineRun.timeout s data dataIndex stores s1.now hlt hnow hq
      | some (true, s1) =>
        simp only [hw] at h
        obtain ⟨hs1, hcase⟩ := awaitAvailable_spec _ _ _ _ _ hw (le_refl _)
        rcases hcase with ⟨_, t, c, rest, hrx, hnow, htime⟩ | ⟨hbf, _⟩
        · have hrx1 : s1.rx = (t, c) :: rest := by rw [hs1]; exact hrx
          have ht1 : t ≤ s1.now := by omega
          have hread : read s1 = (c, afterRead s t rest) := by
            rw [read_cons hrx1 ht1, hs1]
            simp [afterRead, hnow]
          have hin : inTime s t := htime
          rw [hread] at h
          simp only at h
          by_cases hneg : c < 0
          · rw [if_pos hneg] at h
            simp only [Option.some.injEq] at h
            subst h
            exact LineRun.streamError s data dataIndex stores t c rest hlt hrx hin hneg
          · rw [if_neg hneg] at h
            by_cases hcr : c = 13
            · rw [if_pos hcr] at h
              subst hcr
              exact LineRun.carriageReturn s data dataIndex stores t rest r hlt hrx hin
                (ih _ _ _ _ h)
            · rw [if_neg hcr] at h
              by_cases hlf : c = 10
              · rw [if_pos hlf] at h
                simp only [Option.some.injEq] at h
                subst h; subst hlf
                exact LineRun.lineFeed s data dataIndex stores t rest hlt hrx hin
              · rw [if_neg hlf] at h
                exact LineRun.store s data dataIndex stores t c rest r hlt hrx hin
                  (by omega) hcr hlf (ih _ _ _ _ h)
        · simp at hbf
    · rw [if_neg hlt] at h
      by_cases hlt2 : (dataIndex : Int) < dataSize
      · rw [if_pos hlt2] at h
        simp only [Option.some.injEq] at h
        subst h
        exact LineRun.overflow s data dataIndex stores hlt hlt2
      · rw [if_neg hlt2] at h
        simp only [Option.some.injEq] at h
        subst h
        exact LineRun.overflowNoStore s data dataIndex stores hlt hlt2

/-- The `ReadLine` loop returns once the fuel covers the unread bytes and one timeout. -/
theorem ReadLine.loop_total (fuel : Nat) (dataSize : Int) (s : State) (data : List Int)
    (dataIndex : Nat) (stores : List Nat)
    (hf : s.rx.length + s._Timeout.toNat + 3 ≤ fuel) :
    ∃ r, ReadLine.loop fuel s data dataSize dataIndex stores = some r := by
  induction fuel generalizing s data dataIndex stores with
  | zero => omega
  | succ fuel ih =>
    rw [ReadLine.loop]
    by_cases hlt : (dataIndex : Int) < dataSize - 1
    · rw [if_pos hlt]
      obtain ⟨⟨b, s1⟩, hw⟩ := awaitAvailable_total fuel (Stopwatch.Start s) s (by
        simp only [Stopwatch.Start]; omega)
      obtain ⟨hs1, hcase⟩ := awaitAvailable_spec _ _ _ _ _ hw (le_refl _)
      rw [hw]
      rcases hcase with ⟨rfl, t, c, rest, hrx, hnow, htime⟩ | ⟨rfl, _⟩
      · have hrx1 : s1.rx = (t, c) :: rest := by rw [hs1]; exact hrx
        have ht1 : t ≤ s1.now := by omega
        have hread : read s1 = (c, afterRead s t rest) := by
          rw [read_cons hrx1 ht1, hs1]
          simp [afterRead, hnow]
        simp only [hread]
        have hlen : (afterRead s t rest).rx.length + (afterRead s t rest)._Timeout.toNat + 3
            ≤ fuel := by
          simp only [afterRead]
          rw [hrx] at hf
          simp only [List.length_cons] at hf
          omega
        split_ifs
        · exact ⟨_, rfl⟩
        · exact ih _ _ _ _ hlen
        · exact ⟨_, rfl⟩
        · exact ih _ _ _ _ hlen
      · exact ⟨_, rfl⟩
    · rw [if_neg hlt]
      split_ifs <;> exact ⟨_, rfl⟩

theorem storeAt_append (data : List Int) (i : Nat) (vs : List Int) (v : Int) :
    storeAt data i (vs ++ [v]) = (storeAt data i vs).set (i + vs.length) v := by
  induction vs generalizing data i with
  | nil => simp [storeAt]
  | cons w ws ih =>
    show storeAt (data.set i w) (i + 1) (ws ++ [v]) = _
    rw [ih]
    simp only [storeAt, List.length_cons]
    congr 1
    omega

theorem storeAt_eq (data : List Int) (i : Nat) (vs : List Int) (h : i + vs.length ≤ data.length) :
    storeAt data i vs = data.take i ++ vs ++ data.drop (i + vs.length) := by
  induction vs using List.reverseRecOn with
  | nil => simp [storeAt]
  | append_singleton vs v ih =>
    simp only [List.length_append, List.length_singleton] at h
    rw [storeAt_append, ih (by omega)]
    have hlen : (data.take i ++ vs).length = i + vs.length := by
      simp only [List.length_append, List.length_take]
      omega
    rw [List.set_append_right _ _ (by omega), hlen, Nat.sub_self]
    have hd : data.drop (i + vs.length) =
        data[i + vs.length] :: data.drop (i + vs.length + 1) := List.drop_eq_getElem_cons (by omega)
    rw [hd]
    simp [Nat.add_assoc]

theorem inTime_mono {s s1 : State} {t : Nat} (h : inTime s t) (hn : s.now ≤ s1.now)
    (hT : s1._Timeout = s._Timeout) : inTime s1 t := by
  unfold inTime at *
  omega

/-- Frame and progress of a `ReadLine` run. -/
theorem LineRun.frame {dataSize : Int} {s : State} {data : List Int} {dataIndex : Nat}
    {stores : List Nat} {r : ReadLineReturn} (h : LineRun dataSize s data dataIndex stores r) :
    r.state = { s with now := r.state.now, rx := r.state.rx } ∧ s.now ≤ r.state.now ∧
    (∃ pre, s.rx = pre ++ r.state.rx) ∧
    (r.result ≠ .Timeout → (dataIndex : Int) < dataSize - 1 →
      r.state.rx.length < s.rx.length) ∧
    (r.result = .Timeout → (r.state.now : Int) > s.now + s._Timeout) := by
  induction h with
  | overflow s data dataIndex stores h1 h2 =>
    exact ⟨rfl, le_refl _, ⟨[], rfl⟩, fun _ h => absurd h h1, fun h => by simp at h⟩
  | overflowNoStore s data dataIndex stores h1 h2 =>
    exact ⟨rfl, le_refl _, ⟨[], rfl⟩, fun _ h => absurd h h1, fun h => by simp at h⟩
  | timeout s data dataIndex stores n1 h1 hn hq =>
    refine ⟨rfl, ?_, ⟨[], rfl⟩, fun h => by simp at h, fun _ => ?_⟩
    · simp only; omega
    · simp only; omega
  | streamError s data dataIndex stores t c rest h1 hrx hin hc =>
    refine ⟨rfl, ?_, ⟨[(t, c)], by simp [afterRead, hrx]⟩, fun _ _ => ?_, fun h => by simp at h⟩
    · simp [afterRead]
    · simp [afterRead, hrx]
  | lineFeed s data dataIndex stores t rest h1 hrx hin =>
    refine ⟨rfl, ?_, ⟨[(t, 10)], by simp [afterRead, hrx]⟩, fun _ _ => ?_, fun h => by simp at h⟩
    · simp [afterRead]
    · simp [afterRead, hrx]
  | carriageReturn s data dataIndex stores t rest r h1 hrx hin hrun ih =>
    obtain ⟨hf, hm, ⟨pre, hp⟩, hprog, hto⟩ := ih
    simp only [afterRead] at hf hm hp hprog hto
    refine ⟨?_, ?_, ⟨(t, 13) :: pre, ?_⟩, fun _ _ => ?_, fun h => ?_⟩
    · rw [hf]
    · omega
    · rw [hrx, hp]; rfl
    · have : r.state.rx.length ≤ rest.length := by rw [hp]; simp
      rw [hrx]; simp only [List.length_cons]; omega
    · have := hto h
      omega
  | store s data dataIndex stores t c rest r h1 hrx hin hc0 hc13 hc10 hrun ih =>
    obtain ⟨hf, hm, ⟨pre, hp⟩, hprog, hto⟩ := ih
    simp only [afterRead] at hf hm hp hprog hto
    refine ⟨?_, ?_, ⟨(t, c) :: pre, ?_⟩, fun _ _ => ?_, fun h => ?_⟩
    · rw [hf]
    · omega
    · rw [hrx, hp]; rfl
    · have : r.state.rx.length ≤ rest.length := by rw [hp]; simp
      rw [hrx]; simp only [List.length_cons]; omega
    · have := hto h
      omega

theorem kept_append (a b : List (Nat × Int)) : kept (a ++ b) = kept a ++ kept b := by
  simp [kept]

theorem kept_cons_cr (t : Nat) (rest : List (Nat × Int)) : kept ((t, 13) :: rest) = kept rest := by
  simp [kept]

theorem kept_cons_of_ne (t : Nat) (c : Int) (rest : List (Nat × Int)) (h : c ≠ 13) :
    kept ((t, c) :: rest) = c :: kept rest := by
  simp [kept, h]

theorem clockAfter_append (now : Nat) (a b : List (Nat × Int)) :
    clockAfter now (a ++ b) = clockAfter (clockAfter now a) b := by
  simp [clockAfter]

theorem le_clockAfter (now : Nat) (pre : List (Nat × Int)) : now ≤ clockAfter now pre := by
  induction pre generalizing now with
  | nil => simp [clockAfter]
  | cons p ps ih =>
    have := ih (max now p.1)
    simp only [clockAfter, List.foldl_cons] at this ⊢
    omega

/-- A run that starts with a byte which arrives in time, and with room in the buffer, takes
the branch of the loop body that the value of the byte selects. -/
theorem LineRun.inv_head {dataSize : Int} {s : State} {data : List Int} {dataIndex : Nat}
    {stores : List Nat} {r : ReadLineReturn} (h : LineRun dataSize s data dataIndex stores r)
    {t : Nat} {c : Int} {rest : List (Nat × Int)} (hrx : s.rx = (t, c) :: rest)
    (hin : inTime s t) (hlt : (dataIndex : Int) < dataSize - 1) :
    (c < 0 ∧ r = ⟨.StreamError, data.set dataIndex 0, dataIndex, stores ++ [dataIndex],
        afterRead s t rest⟩) ∨
    (c = 13 ∧ LineRun dataSize (afterRead s t rest) data dataIndex stores r) ∨
    (c = 10 ∧ r = ⟨.Complete, data.set dataIndex 0, dataIndex, stores ++ [dataIndex],
        afterRead s t rest⟩) ∨
    (0 ≤ c ∧ c ≠ 13 ∧ c ≠ 10 ∧
      LineRun dataSize (afterRead s t rest) (data.set dataIndex (c % 256)) (dataIndex + 1)
        (stores ++ [dataIndex]) r) := by
  cases h with
  | overflow _ _ _ _ h1 h2 => exact absurd hlt h1
  | overflowNoStore _ _ _ _ h1 h2 => exact absurd hlt h1
  | timeout _ _ _ _ n1 h1 hn hq =>
    have := hq t c rest hrx
    unfold inTime at hin
    omega
  | streamError _ _ _ _ t1 c1 rest1 h1 hrx1 hin1 hc =>
    rw [hrx] at hrx1
    simp only [List.cons.injEq, Prod.mk.injEq] at hrx1
    obtain ⟨⟨rfl, rfl⟩, rfl⟩ := hrx1
    exact Or.inl ⟨hc, rfl⟩
  | carriageReturn _ _ _ _ t1 rest1 _ h1 hrx1 hin1 hrun =>
    rw [hrx] at hrx1
    simp only [List.cons.injEq, Prod.mk.injEq] at hrx1
    obtain ⟨⟨rfl, rfl⟩, rfl⟩ := hrx1
    exact Or.inr (Or.inl ⟨rfl, hrun⟩)
  | lineFeed _ _ _ _ t1 rest1 h1 hrx1 hin1 =>
    rw [hrx] at hrx1
    simp only [List.cons.injEq, Prod.mk.injEq] at hrx1
    obtain ⟨⟨rfl, rfl⟩, rfl⟩ := hrx1
    exact Or.inr (Or.inr (Or.inl ⟨rfl, rfl⟩))
  | store _ _ _ _ t1 c1 rest1 _ h1 hrx1 hin1 hc0 hc13 hc10 hrun =>
    rw [hrx] at hrx1
    simp only [List.cons.injEq, Prod.mk.injEq] at hrx1
    obtain ⟨⟨rfl, rfl⟩, rfl⟩ := hrx1
    exact Or.inr (Or.inr (Or.inr ⟨hc0, hc13, hc10, hrun⟩))

/-- A run with room in the buffer whose next byte, if any, comes too late ends in the
timeout branch, at the first millisecond at which the stopwatch reads more than the active
timeout. -/
theorem LineRun.inv_quiet {dataSize : Int} {s : State} {data : List Int} {dataIndex : Nat}
    {stores : List Nat} {r : ReadLineReturn} (h : LineRun dataSize s data dataIndex stores r)
    (hq : ∀ t c rest, s.rx = (t, c) :: rest → ¬ inTime s t)
    (hlt : (dataIndex : Int) < dataSize - 1) :
    ∃ n1 : Nat, (n1 : Int) = max (s.now : Int) (s.now + s._Timeout + 1) ∧
      r = ⟨.Timeout, data.set dataIndex 0, dataIndex, stores ++ [dataIndex],
        { s with now := n1 }⟩ := by
  cases h with
  | overflow _ _ _ _ h1 h2 => exact absurd hlt h1
  | overflowNoStore _ _ _ _ h1 h2 => exact absurd hlt h1
  | timeout _ _ _ _ n1 h1 hn hq => exact ⟨n1, hn, rfl⟩
  | streamError _ _ _ _ t1 c1 rest1 h1 hrx1 hin1 hc => exact absurd hin1 (hq _ _ _ hrx1)
  | carriageReturn _ _ _ _ t1 rest1 _ h1 hrx1 hin1 hrun => exact absurd hin1 (hq _ _ _ hrx1)
  | lineFeed _ _ _ _ t1 rest1 h1 hrx1 hin1 => exact absurd hin1 (hq _ _ _ hrx1)
  | store _ _ _ _ t1 c1 rest1 _ h1 hrx1 hin1 hc0 hc13 hc10 hrun => exact absurd hin1 (hq _ _ _ hrx1)

/-- A run that starts with the buffer full (`dataIndex = dataSize - 1`) stores the terminator
and ends in the overflow return without touching the stream. -/
theorem LineRun.inv_full {dataSize : Int} {s : State} {data : List Int} {dataIndex : Nat}
    {stores : List Nat} {r : ReadLineReturn} (h : LineRun dataSize s data dataIndex stores r)
    (hfull : (dataIndex : Int) = dataSize - 1) :
    r = ⟨.Overflow, data.set dataIndex 0, dataIndex, stores ++ [dataIndex], s⟩ := by
  cases h with
  | overflow _ _ _ _ h1 h2 => rfl
  | overflowNoStore _ _ _ _ h1 h2 => omega
  | timeout _ _ _ _ n1 h1 hn hq => omega
  | streamError _ _ _ _ t1 c1 rest1 h1 hrx1 hin1 hc => omega
  | carriageReturn _ _ _ _ t1 rest1 _ h1 hrx1 hin1 hrun => omega
  | lineFeed _ _ _ _ t1 rest1 h1 hrx1 hin1 => omega
  | store _ _ _ _ t1 c1 rest1 _ h1 hrx1 hin1 hc0 hc13 hc10 hrun => omega

theorem inTimeChain_append (timeout : Int) (now : Nat) (a b : List (Nat × Int)) :
    inTimeChain timeout now (a ++ b) ↔
      inTimeChain timeout now a ∧ inTimeChain timeout (clockAfter now a) b := by
  induction a generalizing now with
  | nil => simp [inTimeChain, clockAfter]
  | cons p ps ih =>
    obtain ⟨t, c⟩ := p
    show (_ ∧ inTimeChain timeout (max now t) (ps ++ b)) ↔ _
    rw [ih]
    simp only [inTimeChain, clockAfter, List.foldl_cons, and_assoc]

theorem inTimeChain_of_forall (s : State) (pre : List (Nat × Int))
    (h : ∀ p ∈ pre, inTime s p.1) : inTimeChain s._Timeout s.now pre := by
  suffices H : ∀ now, s.now ≤ now → inTimeChain s._Timeout now pre from H _ (le_refl _)
  induction pre with
  | nil => intro now _; trivial
  | cons p ps ih =>
    obtain ⟨t, c⟩ := p
    intro now hnow
    have h1 := h (t, c) (by simp)
    unfold inTime at h1
    refine ⟨by omega, ?_⟩
    exact ih (fun p hp => h p (List.mem_cons_of_mem _ hp)) _ (by omega)

/-- Fast-forward: a run whose schedule begins with a stretch `pre` of valid bytes, none a
line feed, each arriving in time for the wait that follows the read of the byte before it,
and for each of which there is still room in the buffer when it is read, is a run from the
state after that stretch. -/
theorem LineRun.skip_chain {dataSize : Int} {s : State} {data : List Int} {dataIndex : Nat}
    {stores : List Nat} {r : ReadLineReturn} (h : LineRun dataSize s data dataIndex stores r)
    (pre rest : List (Nat × Int)) (hrx : s.rx = pre ++ rest)
    (hchain : inTimeChain s._Timeout s.now pre)
    (hpre : ∀ p ∈ pre, 0 ≤ p.2 ∧ p.2 ≠ 10)
    (hroom : ∀ pre1 p pre2, pre = pre1 ++ p :: pre2 →
      ((dataIndex + (kept pre1).length : Nat) : Int) < dataSize - 1) :
    LineRun dataSize { s with now := clockAfter s.now pre, rx := rest }
      (storeAt data dataIndex ((kept pre).map (fun c => c % 256)))
      (dataIndex + (kept pre).length)
      (stores ++ List.range' dataIndex (kept pre).length) r := by
  induction pre using List.reverseRecOn generalizing rest with
  | nil =>
    simp only [List.nil_append] at hrx
    have hs : { s with now := clockAfter s.now [], rx := rest } = s := by
      rw [← hrx]; rfl
    rw [hs]
    simpa [kept, storeAt] using h
  | append_singleton pre p ih =>
    obtain ⟨t, c⟩ := p
    have hrx1 : s.rx = pre ++ (t, c) :: rest := by rw [hrx]; simp
    obtain ⟨hchain1, hlast, _⟩ := (inTimeChain_append _ _ _ _).1 hchain
    have hpre1 : ∀ p ∈ pre, 0 ≤ p.2 ∧ p.2 ≠ 10 :=
      fun p hp => hpre p (List.mem_append_left _ hp)
    have hroom1 : ∀ pre1 p pre2, pre = pre1 ++ p :: pre2 →
        ((dataIndex + (kept pre1).length : Nat) : Int) < dataSize - 1 := by
      intro pre1 p pre2 hp
      exact hroom pre1 p (pre2 ++ [(t, c)]) (by rw [hp]; simp)
    have hrun := ih ((t, c) :: rest) hrx1 hchain1 hpre1 hroom1
    have hlt := hroom pre (t, c) [] rfl
    obtain ⟨hc0, hc10⟩ := hpre (t, c) (by simp)
    have hin1 : inTime { s with now := clockAfter s.now pre, rx := (t, c) :: rest } t := hlast
    have hclock : clockAfter s.now (pre ++ [(t, c)]) = max (clockAfter s.now pre) t := by
      rw [clockAfter_append]; rfl
    rcases LineRun.inv_head hrun rfl hin1 hlt with ⟨hneg, _⟩ | ⟨hcr, hr⟩ | ⟨hlf, _⟩ |
      ⟨_, hc13, _, hr⟩
    · omega
    · subst hcr
      rw [kept_append, kept_cons_cr]
      simp only [kept, List.map_nil, List.filter_nil, List.append_nil, hclock]
      exact hr
    · exact absurd hlf hc10
    · rw [kept_append, kept_cons_of_ne _ _ _ hc13]
      simp only [kept, List.map_nil, List.filter_nil, List.map_append, List.map_cons,
        List.length_append, List.length_cons, List.length_nil, hclock]
      rw [storeAt_append, List.length_map]
      have hrange : stores ++ List.range' dataIndex ((List.filter (fun c => decide (c ≠ 13))
          (List.map Prod.snd pre)).length + 0 + 1) = (stores ++ List.range' dataIndex
          (List.filter (fun c => decide (c ≠ 13)) (List.map Prod.snd pre)).length) ++
          [dataIndex + (List.filter (fun c => decide (c ≠ 13)) (List.map Prod.snd pre)).length] := by
        rw [List.append_assoc, Nat.add_zero, List.range'_concat]
        simp
      rw [hrange]
      simpa [afterRead, kept, Nat.add_assoc] using hr

/-- Fast-forward over a stretch of bytes that all arrive in time for the first wait. -/
theorem LineRun.skip {dataSize : Int} {s : State} {data : List Int} {dataIndex : Nat}
    {stores : List Nat} {r : ReadLineReturn} (h : LineRun dataSize s data dataIndex stores r)
    (pre rest : List (Nat × Int)) (hrx : s.rx = pre ++ rest)
    (hpre : ∀ p ∈ pre, inTime s p.1 ∧ 0 ≤ p.2 ∧ p.2 ≠ 10)
    (hroom : ∀ pre1 p pre2, pre = pre1 ++ p :: pre2 →
      ((dataIndex + (kept pre1).length : Nat) : Int) < dataSize - 1) :
    LineRun dataSize { s with now := clockAfter s.now pre, rx := rest }
      (storeAt data dataIndex ((kept pre).map (fun c => c % 256)))
      (dataIndex + (kept pre).length)
      (stores ++ List.range' dataIndex (kept pre).length) r :=
  h.skip_chain pre rest hrx (inTimeChain_of_forall s pre (fun p hp => (hpre p hp).1))
    (fun p hp => (hpre p hp).2) hroom

/-- Buffer safety of a run: the index stays within the capacity, the stores of the run are
at the consecutive indices from the starting index to the final one, and the cell at the
final index holds the terminator. -/
theorem LineRun.bounds {dataSize : Int} {s : State} {data : List Int} {dataIndex : Nat}
    {stores : List Nat} {r : ReadLineReturn} (h : LineRun dataSize s data dataIndex stores r)
    (hidx : (dataIndex : Int) ≤ dataSize - 1) (hlen : dataSize ≤ data.length) :
    dataIndex ≤ r.dataIndex ∧ (r.dataIndex : Int) ≤ dataSize - 1 ∧
    r.data.length = data.length ∧
    r.stores = stores ++ List.range' dataIndex (r.dataIndex + 1 - dataIndex) ∧
    r.data[r.dataIndex]? = some 0 := by
  induction h with
  | overflow s data dataIndex stores h1 h2 =>
    refine ⟨le_refl _, hidx, by simp, by simp, ?_⟩
    simp only [List.getElem?_set]
    have : dataIndex < data.length := by omega
    simp [this]
  | overflowNoStore s data dataIndex stores h1 h2 => omega
  | timeout s data dataIndex stores n1 h1 hn hq =>
    refine ⟨le_refl _, hidx, by simp, by simp, ?_⟩
    simp only [List.getElem?_set]
    have : dataIndex < data.length := by omega
    simp [this]
  | streamError s data dataIndex stores t c rest h1 hrx hin hc =>
    refine ⟨le_refl _, hidx, by simp, by simp, ?_⟩
    simp only [List.getElem?_set]
    have : dataIndex < data.length := by omega
    simp [this]
  | lineFeed s data dataIndex stores t rest h1 hrx hin =>
    refine ⟨le_refl _, hidx, by simp, by simp, ?_⟩
    simp only [List.getElem?_set]
    have : dataIndex < data.length := by omega
    simp [this]
  | carriageReturn s data dataIndex stores t rest r h1 hrx hin hrun ih =>
    exact ih hidx hlen
  | store s data dataIndex stores t c rest r h1 hrx hin hc0 hc13 hc10 hrun ih =>
    obtain ⟨h1', h2', h3', h4', h5'⟩ := ih (by push_cast; omega) (by simpa using hlen)
    refine ⟨by omega, h2', by simpa using h3', ?_, h5'⟩
    rw [h4', List.append_assoc]
    congr 1
    have : r.dataIndex + 1 - dataIndex = (r.dataIndex + 1 - (dataIndex + 1)) + 1 := by omega
    rw [this, List.range'_succ]
    rfl

theorem kept_length_le (pre : List (Nat × Int)) : (kept pre).length ≤ pre.length := by
  unfold kept
  exact (List.length_filter_le _ _).trans (by simp)

theorem kept_mem {pre : List (Nat × Int)} {c : Int} (h : c ∈ kept pre) :
    ∃ p ∈ pre, p.2 = c := by
  unfold kept at h
  simp only [List.mem_filter, List.mem_map] at h
  obtain ⟨⟨p, hp, rfl⟩, _⟩ := h
  exact ⟨p, hp, rfl⟩

theorem kept_map_emod (pre : List (Nat × Int)) (h : ∀ p ∈ pre, 0 ≤ p.2 ∧ p.2 < 256) :
    (kept pre).map (fun c => c % 256) = kept pre := by
  have : ∀ c ∈ kept pre, c % 256 = c := by
    intro c hc
    obtain ⟨p, hp, rfl⟩ := kept_mem hc
    exact Int.emod_eq_of_lt (h p hp).1 (h p hp).2
  calc (kept pre).map (fun c => c % 256) = (kept pre).map id := List.map_congr_left this
    _ = kept pre := List.map_id _

/-- A run over a line whose bytes all arrive in time and fit the buffer ends at the line
feed with the line stored and terminated. -/
theorem LineRun.complete_of_line {dataSize : Int} {s : State} {data : List Int}
    {dataIndex : Nat} {stores : List Nat} {r : ReadLineReturn}
    (h : LineRun dataSize s data dataIndex stores r)
    (pre : List (Nat × Int)) (tLF : Nat) (rest : List (Nat × Int))
    (hrx : s.rx = pre ++ (tLF, 10) :: rest)
    (hpre : ∀ p ∈ pre, inTime s p.1 ∧ 0 ≤ p.2 ∧ p.2 ≠ 10) (hlf : inTime s tLF)
    (hfit : ((dataIndex + (kept pre).length : Nat) : Int) < dataSize - 1) :
    r = ⟨.Complete,
      (storeAt data dataIndex ((kept pre).map (fun c => c % 256))).set
        (dataIndex + (kept pre).length) 0,
      dataIndex + (kept pre).length,
      stores ++ List.range' dataIndex (kept pre).length ++ [dataIndex + (kept pre).length],
      { s with now := clockAfter s.now (pre ++ [(tLF, 10)]), rx := rest }⟩ := by
  have hroom : ∀ pre1 p pre2, pre = pre1 ++ p :: pre2 →
      ((dataIndex + (kept pre1).length : Nat) : Int) < dataSize - 1 := by
    intro pre1 p pre2 hp
    have : (kept pre1).length ≤ (kept pre).length := by
      rw [hp, kept_append]; simp
    omega
  have hrun := h.skip pre ((tLF, 10) :: rest) hrx hpre hroom
  have hin1 : inTime { s with now := clockAfter s.now pre, rx := (tLF, 10) :: rest } tLF :=
    inTime_mono hlf (le_clockAfter _ _) rfl
  rcases LineRun.inv_head hrun rfl hin1 hfit with ⟨hneg, _⟩ | ⟨hcr, _⟩ | ⟨_, hr⟩ | ⟨_, _, hc10, _⟩
  · omega
  · omega
  · rw [hr, clockAfter_append]
    rfl
  · exact absurd rfl hc10

/-- A run over a schedule without line feed never ends in the `Complete` return. -/
theorem LineRun.not_complete {dataSize : Int} {s : State} {data : List Int}
    {dataIndex : Nat} {stores : List Nat} {r : ReadLineReturn}
    (h : LineRun dataSize s data dataIndex stores r) (hno : ∀ p ∈ s.rx, p.2 ≠ 10) :
    r.result ≠ .Complete := by
  induction h with
  | overflow s data dataIndex stores h1 h2 => simp
  | overflowNoStore s data dataIndex stores h1 h2 => simp
  | timeout s data dataIndex stores n1 h1 hn hq => simp
  | streamError s data dataIndex stores t c rest h1 hrx hin hc => simp
  | lineFeed s data dataIndex stores t rest h1 hrx hin =>
    exact absurd rfl (hno (t, 10) (by rw [hrx]; simp))
  | carriageReturn s data dataIndex stores t rest r h1 hrx hin hrun ih =>
    exact ih (fun p hp => hno p (by rw [hrx]; exact List.mem_cons_of_mem _ hp))
  | store s data dataIndex stores t c rest r h1 hrx hin hc0 hc13 hc10 hrun ih =>
    exact ih (fun p hp => hno p (by rw [hrx]; exact List.mem_cons_of_mem _ hp))

theorem inTime_of_le {s : State} {t : Nat} (h : (t : Int) ≤ s.now + s._Timeout) : inTime s t := by
  unfold inTime
  omega

/-- **C1.** For every capacity `dataSize` (at least 2, as `hfit` implies) and every schedule
`pre ++ (tLF, 10) :: rest` whose bytes before the first line feed are valid bytes, arrive
(like the line feed) no later than the timeout after the call, and contain at most
`dataSize - 2` bytes other than carriage return, `ReadLine` returns `true` (`Complete`), the buffer holds exactly the bytes before
the line feed without the carriage returns, in order, followed by NUL (the cells behind the
terminator are untouched), and the stream has been consumed up to and including that line
feed and no further. -/
theorem ReadLine_complete_line (s : State) (data : List Int) (dataSize : Int)
    (pre : List (Nat × Int)) (tLF : Nat) (rest : List (Nat × Int)) (fuel : Nat)
    (hlen : dataSize ≤ data.length)
    (hrx : s.rx = pre ++ (tLF, 10) :: rest)
    (hbytes : ∀ p ∈ pre, 0 ≤ p.2 ∧ p.2 < 256 ∧ p.2 ≠ 10)
    (htime : ∀ p ∈ pre ++ [(tLF, 10)], (p.1 : Int) ≤ s.now + s._Timeout)
    (hfit : ((kept pre).length : Int) ≤ dataSize - 2)
    (hf : s.rx.length + s._Timeout.toNat + 3 ≤ fuel) :
    ∃ r, ReadLine fuel s data dataSize = some r ∧
      r.result = .Complete ∧ r.result.toBool = true ∧
      r.data = kept pre ++ 0 :: data.drop ((kept pre).length + 1) ∧
      r.state.rx = rest := by
  obtain ⟨r, hr⟩ := ReadLine.loop_total fuel dataSize s data 0 [] hf
  refine ⟨r, hr, ?_⟩
  have hrun := ReadLine.loop_sound _ _ _ _ _ _ _ hr
  have hpre : ∀ p ∈ pre, inTime s p.1 ∧ 0 ≤ p.2 ∧ p.2 ≠ 10 := fun p hp =>
    ⟨inTime_of_le (htime p (List.mem_append_left _ hp)), (hbytes p hp).1, (hbytes p hp).2.2⟩
  have hlf : inTime s tLF := inTime_of_le (htime (tLF, 10) (by simp))
  have hres := hrun.complete_of_line pre tLF rest hrx hpre hlf (by push_cast; omega)
  rw [hres]
  refine ⟨rfl, rfl, ?_, rfl⟩
  simp only [Nat.zero_add]
  rw [kept_map_emod pre (fun p hp => ⟨(hbytes p hp).1, (hbytes p hp).2.1⟩)]
  have h1 := storeAt_append data 0 (kept pre) 0
  simp only [Nat.zero_add] at h1
  rw [← h1, storeAt_eq data 0 (kept pre ++ [0]) (by simp; omega)]
  simp

/-- Worked instance of C1: `"A\r\n"` followed by `"B"`, capacity 5. -/
theorem ReadLine_complete_line_witness :
    ∃ r, ReadLine 10 { demo with rx := [(0, 65), (2, 13), (3, 10), (3, 66)] } [7, 7, 7, 7, 7] 5
        = some r ∧
      r.result = .Complete ∧ r.result.toBool = true ∧
      r.data = kept [(0, 65), (2, 13)] ++ 0 :: List.drop ((kept [(0, 65), (2, 13)]).length + 1)
        [7, 7, 7, 7, 7] ∧
      r.state.rx = [(3, 66)] :=
  ReadLine_complete_line { demo with rx := [(0, 65), (2, 13), (3, 10), (3, 66)] }
    [7, 7, 7, 7, 7] 5 [(0, 65), (2, 13)] 3 [(3, 66)] 10 (by decide) rfl
    (by decide) (by decide) (by decide) (by decide)

/-- **C9.** For every capacity `dataSize ≥ 1`, every buffer of at least that size and every
incoming schedule, `ReadLine` returns, and on whichever path it returns the stores it made
are at the indices `0, 1, .., k` in this order, where `k` is the final `dataIndex` (the
number of bytes stored; the store at `k` is the terminator): `k ≤ dataSize - 1`, every
index written is below `dataSize`, and `data[k] = 0`. -/
theorem ReadLine_buffer_terminated (s : State) (data : List Int) (dataSize : Int) (fuel : Nat)
    (hcap : 1 ≤ dataSize) (hlen : dataSize ≤ data.length)
    (hf : s.rx.length + s._Timeout.toNat + 3 ≤ fuel) :
    ∃ r, ReadLine fuel s data dataSize = some r ∧
      (r.dataIndex : Int) ≤ dataSize - 1 ∧ r.data[r.dataIndex]? = some 0 ∧
      r.stores = List.range (r.dataIndex + 1) ∧ (∀ i ∈ r.stores, (i : Int) < dataSize) ∧
      r.data.length = data.length := by
  obtain ⟨r, hr⟩ := ReadLine.loop_total fuel dataSize s data 0 [] hf
  refine ⟨r, hr, ?_⟩
  have hrun := ReadLine.loop_sound _ _ _ _ _ _ _ hr
  obtain ⟨_, h2, h3, h4, h5⟩ := hrun.bounds (by push_cast; omega) hlen
  have hst : r.stores = List.range (r.dataIndex + 1) := by
    rw [h4, List.range_eq_range']; simp
  refine ⟨h2, h5, hst, ?_, h3⟩
  intro i hi
  rw [hst, List.mem_range] at hi
  omega

/-- Worked instance of C9: a stream error after one stored byte, capacity 3. -/
theorem ReadLine_buffer_terminated_witness :
    ∃ r, ReadLine 10 { demo with rx := [(0, 65), (1, -1)] } [7, 7, 7] 3 = some r ∧
      (r.dataIndex : Int) ≤ 3 - 1 ∧ r.data[r.dataIndex]? = some 0 ∧
      r.stores = List.range (r.dataIndex + 1) ∧ (∀ i ∈ r.stores, (i : Int) < 3) ∧
      r.data.length = [7, 7, 7].length :=
  ReadLine_buffer_terminated { demo with rx := [(0, 65), (1, -1)] } [7, 7, 7] 3 10
    (by decide) (by decide) (by decide)

theorem kept_length_of_no_cr (pre : List (Nat × Int)) (h : ∀ p ∈ pre, p.2 ≠ 13) :
    (kept pre).length = pre.length := by
  unfold kept
  rw [List.filter_eq_self.2, List.length_map]
  intro c hc
  simp only [List.mem_map] at hc
  obtain ⟨p, hp, rfl⟩ := hc
  simpa using h p hp

/-- A run over valid bytes chained in time, with room left in the buffer, behind which the
stream stays silent for more than the timeout, ends in the timeout return, taken
`_Timeout + 1` ms after the last byte was read. -/
theorem LineRun.timeout_of_chain {dataSize : Int} {s : State} {data : List Int}
    {dataIndex : Nat} {stores : List Nat} {r : ReadLineReturn}
    (h : LineRun dataSize s data dataIndex stores r)
    (pre rest : List (Nat × Int)) (hrx : s.rx = pre ++ rest)
    (hchain : inTimeChain s._Timeout s.now pre)
    (hpre : ∀ p ∈ pre, 0 ≤ p.2 ∧ p.2 ≠ 10)
    (hroom : ((dataIndex + (kept pre).length : Nat) : Int) < dataSize - 1)
    (hquiet : ∀ t c rest1, rest = (t, c) :: rest1 →
      clockAfter s.now pre < t ∧ (clockAfter s.now pre : Int) + s._Timeout + 1 < t) :
    r.result = .Timeout ∧ r.state.rx = rest ∧
    (r.state.now : Int) = max (clockAfter s.now pre : Int) (clockAfter s.now pre + s._Timeout + 1) := by
  have hroom1 : ∀ pre1 p pre2, pre = pre1 ++ p :: pre2 →
      ((dataIndex + (kept pre1).length : Nat) : Int) < dataSize - 1 := by
    intro pre1 p pre2 hp
    have : (kept pre1).length ≤ (kept pre).length := by
      rw [hp, kept_append]; simp
    omega
  have hrun := h.skip_chain pre rest hrx hchain hpre hroom1
  obtain ⟨n1, hn1, hres⟩ := hrun.inv_quiet (by
    intro t c rest1 hr hin
    have := hquiet t c rest1 hr
    unfold inTime at hin
    simp only at hin
    omega) hroom
  rw [hres]
  exact ⟨rfl, rfl, hn1⟩

/-- A run over a line whose bytes are chained in time (each arrives within the timeout of
the read of the byte before it) and fit the buffer ends at the line feed, however long the
whole line takes. -/
theorem LineRun.complete_of_chain {dataSize : Int} {s : State} {data : List Int}
    {dataIndex : Nat} {stores : List Nat} {r : ReadLineReturn}
    (h : LineRun dataSize s data dataIndex stores r)
    (pre : List (Nat × Int)) (tLF : Nat) (rest : List (Nat × Int))
    (hrx : s.rx = pre ++ (tLF, 10) :: rest)
    (hchain : inTimeChain s._Timeout s.now (pre ++ [(tLF, 10)]))
    (hpre : ∀ p ∈ pre, 0 ≤ p.2 ∧ p.2 ≠ 10)
    (hfit : ((dataIndex + (kept pre).length : Nat) : Int) < dataSize - 1) :
    r.result = .Complete ∧ r.state.rx = rest ∧
    r.state.now = clockAfter s.now (pre ++ [(tLF, 10)]) := by
  have hroom : ∀ pre1 p pre2, pre = pre1 ++ p :: pre2 →
      ((dataIndex + (kept pre1).length : Nat) : Int) < dataSize - 1 := by
    intro pre1 p pre2 hp
    have : (kept pre1).length ≤ (kept pre).length := by
      rw [hp, kept_append]; simp
    omega
  obtain ⟨hchain1, hlf, _⟩ := (inTimeChain_append _ _ _ _).1 hchain
  have hrun := h.skip_chain pre ((tLF, 10) :: rest) hrx hchain1 hpre hroom
  have hin1 : inTime { s with now := clockAfter s.now pre, rx := (tLF, 10) :: rest } tLF := hlf
  rcases LineRun.inv_head hrun rfl hin1 hfit with ⟨hneg, _⟩ | ⟨hcr, _⟩ | ⟨_, hr⟩ | ⟨_, _, hc10, _⟩
  · omega
  · omega
  · rw [hr, clockAfter_append]
    exact ⟨rfl, rfl, rfl⟩
  · exact absurd rfl hc10

/-- **C8 (as stated) fails.**  Timeout 3 ms, call at ms 0, a carriage return arriving at
ms 2 and the line feed at ms 5.  At ms 4 more than the timeout has elapsed since the call,
no line feed has arrived, and the only byte that has arrived (the carriage return) has been
read, so the stream is empty; the claim predicts `Timeout`.  The read of the carriage return
restarted the stopwatch, and `ReadLine` returns `Complete` at ms 5. -/
theorem ReadLine_whole_call_timeout_counterexample :
    (({ demo with rx := [(2, 13), (5, 10)] } : State).now : Int) +
        ({ demo with rx := [(2, 13), (5, 10)] } : State)._Timeout < 4 ∧
    (∀ p ∈ ({ demo with rx := [(2, 13), (5, 10)] } : State).rx, p.1 ≤ 4 → p.2 = 13 ∧ p.1 ≤ 2) ∧
    ReadLine 10 { demo with rx := [(2, 13), (5, 10)] } [7, 7, 7] 3 =
      some ⟨.Complete, [0, 7, 7], 0, [0], { demo with now := 5, rx := [] }⟩ := by
  decide

/-- **C8 (amended).**  `ReadLine` compares the active timeout against the time elapsed since
the stopwatch was last restarted, and it restarts the stopwatch on every pass of its loop:
at the start of the call and after every byte it has read, carriage returns included.  For
every schedule `pre ++ rest` where `pre` consists of valid bytes, none a line feed, each
arriving at most `_Timeout + 1` ms after the byte before it was read (the first: after the
call), and leaves room in the buffer: (a) if the next byte, if any, arrives more than
`_Timeout + 1` ms after the last byte of `pre` was read, `ReadLine` returns `Timeout`,
`_Timeout + 1` ms after that read (at once when `_Timeout` is negative), with `rest` unread;
(b) if the next byte is a line feed that arrives at most `_Timeout + 1` ms after that read,
`ReadLine` returns `Complete` when the line feed arrives, however long ago the call started.
The timeout therefore bounds the wait for each byte, not the assembly of the whole line. -/
theorem ReadLine_timeout_per_byte (s : State) (data : List Int) (dataSize : Int)
    (pre rest : List (Nat × Int)) (fuel : Nat)
    (hrx : s.rx = pre ++ rest)
    (hchain : inTimeChain s._Timeout s.now pre)
    (hpre : ∀ p ∈ pre, 0 ≤ p.2 ∧ p.2 ≠ 10)
    (hroom : ((kept pre).length : Int) < dataSize - 1)
    (hf : s.rx.length + s._Timeout.toNat + 3 ≤ fuel) :
    ∃ r, ReadLine fuel s data dataSize = some r ∧
      ((∀ t c rest1, rest = (t, c) :: rest1 →
          clockAfter s.now pre < t ∧ (clockAfter s.now pre : Int) + s._Timeout + 1 < t) →
        r.result = .Timeout ∧ r.state.rx = rest ∧
        (r.state.now : Int) =
          max (clockAfter s.now pre : Int) (clockAfter s.now pre + s._Timeout + 1)) ∧
      (∀ tLF rest1, rest = (tLF, 10) :: rest1 →
          (tLF ≤ clockAfter s.now pre ∨ (tLF : Int) ≤ clockAfter s.now pre + s._Timeout + 1) →
        r.result = .Complete ∧ r.state.rx = rest1 ∧
        r.state.now = max (clockAfter s.now pre) tLF) := by
  obtain ⟨r, hr⟩ := ReadLine.loop_total fuel dataSize s data 0 [] hf
  refine ⟨r, hr, ?_, ?_⟩
  · intro hquiet
    exact (ReadLine.loop_sound _ _ _ _ _ _ _ hr).timeout_of_chain pre rest hrx hchain hpre
      (by push_cast; omega) hquiet
  · intro tLF rest1 hrest hlf
    subst hrest
    have hc : inTimeChain s._Timeout s.now (pre ++ [(tLF, 10)]) :=
      (inTimeChain_append _ _ _ _).2 ⟨hchain, hlf, trivial⟩
    have := (ReadLine.loop_sound _ _ _ _ _ _ _ hr).complete_of_chain pre tLF rest1 hrx hc hpre
      (by push_cast; omega)
    rw [clockAfter_append] at this
    exact this

/-- Worked instances of the amended C8, timeout 3 ms: the line `"A\r\n"` trickling in at
ms 3, 6 and 9 is completed at ms 9; with the line feed only at ms 11 the call times out at
ms 10, four ms after the carriage return was read. -/
theorem ReadLine_timeout_per_byte_witness :
    (∃ r, ReadLine 20 { demo with rx := [(3, 65), (6, 13), (9, 10)] } [7, 7, 7] 3 = some r ∧
      r.result = .Complete ∧ r.state.rx = [] ∧ r.state.now = 9) ∧
    (∃ r, ReadLine 20 { demo with rx := [(3, 65), (6, 13), (11, 10)] } [7, 7, 7] 3 = some r ∧
      r.result = .Timeout ∧ r.state.rx = [(11, 10)] ∧ (r.state.now : Int) = 10) := by
  constructor
  · obtain ⟨r, h1, _, h3⟩ := ReadLine_timeout_per_byte
      { demo with rx := [(3, 65), (6, 13), (9, 10)] } [7, 7, 7] 3 [(3, 65), (6, 13)] [(9, 10)] 20
      rfl (by decide) (by decide) (by decide) (by decide)
    exact ⟨r, h1, h3 9 [] rfl (by decide)⟩
  · obtain ⟨r, h1, h2, _⟩ := ReadLine_timeout_per_byte
      { demo with rx := [(3, 65), (6, 13), (11, 10)] } [7, 7, 7] 3 [(3, 65), (6, 13)] [(11, 10)] 20
      rfl (by decide) (by decide) (by decide) (by decide)
    refine ⟨r, h1, h2 ?_⟩
    intro t c rest1 h
    simp only [List.cons.injEq, Prod.mk.injEq] at h
    obtain ⟨⟨rfl, rfl⟩, rfl⟩ := h
    decide

/-- The model `strcmp` is zero exactly when the two C strings have the same bytes. -/
theorem strcmp_eq_zero_iff (a b : List Int) : strcmp a b = 0 ↔ cstr a = cstr b := by
  induction a generalizing b with
  | nil =>
    cases b with
    | nil => simp [strcmp, cstr]
    | cons y ys =>
      by_cases hy : y = 0
      · simp [strcmp, cstr, hy]
      · simp [strcmp, cstr, hy, List.takeWhile_cons]
  | cons x xs ih =>
    cases b with
    | nil =>
      by_cases hx : x = 0
      · simp [strcmp, cstr, hx]
      · simp [strcmp, cstr, hx, List.takeWhile_cons]
    | cons y ys =>
      by_cases hxy : x = y
      · subst hxy
        by_cases hx : x = 0
        · simp [strcmp, cstr, hx]
        · have := ih ys
          simp only [cstr] at this
          simp [strcmp, cstr, hx, List.takeWhile_cons, this]
      · have hsub : x - y ≠ 0 := by omega
        by_cases hx : x = 0
        · have hy : y ≠ 0 := by omega
          have hy' : ¬ (0 : Int) = y := by omega
          simp [strcmp, cstr, hxy, hsub, hx, hy, hy', List.takeWhile_cons]
        · by_cases hy : y = 0
          · simp [strcmp, cstr, hxy, hsub, hx, hy, List.takeWhile_cons]
          · simp [strcmp, cstr, hxy, hsub, hx, hy, List.takeWhile_cons]

theorem cstr_of_no_zero (l : List Int) (h : ∀ c ∈ l, c ≠ 0) : cstr l = l := by
  unfold cstr
  rw [List.takeWhile_eq_self_iff]
  intro c hc
  simpa using h c hc

/-- Frame and progress of `ReadLine`: it changes only the clock and the receive schedule,
the clock never goes back, what is left of the schedule is a tail of what was there; a call
with room for at least one byte that does not time out has consumed at least one byte, and a
call that times out returns later than the active timeout after its start. -/
theorem ReadLine_frame {fuel : Nat} {s : State} {data : List Int} {dataSize : Int}
    {r : ReadLineReturn} (h : ReadLine fuel s data dataSize = some r) :
    r.state = { s with now := r.state.now, rx := r.state.rx } ∧ s.now ≤ r.state.now ∧
    (∃ pre, s.rx = pre ++ r.state.rx) ∧
    (r.result ≠ .Timeout → 2 ≤ dataSize → r.state.rx.length < s.rx.length) ∧
    (r.result = .Timeout → (r.state.now : Int) > s.now + s._Timeout) := by
  obtain ⟨h1, h2, h3, h4, h5⟩ := (ReadLine.loop_sound _ _ _ _ _ _ _ h).frame
  exact ⟨h1, h2, h3, fun hne hcap => h4 hne (by push_cast; omega), h5⟩

theorem ReadLine_total (fuel : Nat) (s : State) (data : List Int) (dataSize : Int)
    (hf : s.rx.length + s._Timeout.toNat + 3 ≤ fuel) :
    ∃ r, ReadLine fuel s data dataSize = some r :=
  ReadLine.loop_total fuel dataSize s data 0 [] hf

/-- Frame and progress of the `WaitForResponse` loop. -/
theorem WaitForResponse.waitLoop_frame (fuel : Nat) (response data : List Int) (s : State)
    (b : Bool) (s1 : State) (h : WaitForResponse.loop fuel response data s = some (b, s1)) :
    s1 = { s with now := s1.now, rx := s1.rx } ∧ s.now ≤ s1.now ∧
    (∃ pre, s.rx = pre ++ s1.rx) ∧
    (b = true → s1.rx.length < s.rx.length) ∧
    (b = false → s1.rx.length < s.rx.length ∨ (s1.now : Int) > s.now + s._Timeout) := by
  induction fuel generalizing data s with
  | zero => simp [WaitForResponse.loop] at h
  | succ fuel ih =>
    rw [WaitForResponse.loop] at h
    match hr : ReadLine fuel s data MODULE_RESPONSE_MAX_SIZE with
    | none => simp [hr] at h
    | some r =>
      simp only [hr] at h
      obtain ⟨hf, hm, ⟨pre, hp⟩, hprog, hto⟩ := ReadLine_frame hr
      have hcap : (2 : Int) ≤ (MODULE_RESPONSE_MAX_SIZE : Nat) := by decide
      by_cases hres : r.result.toBool = false
      · rw [if_pos hres] at h
        simp only [Option.some.injEq, Prod.mk.injEq] at h
        obtain ⟨rfl, rfl⟩ := h
        refine ⟨hf, hm, ⟨pre, hp⟩, fun h => by simp at h, fun _ => ?_⟩
        by_cases hT : r.result = .Timeout
        · exact Or.inr (hto hT)
        · exact Or.inl (hprog hT hcap)
      · rw [if_neg hres] at h
        have hne : r.result ≠ .Timeout := by
          intro h'; rw [h'] at hres; exact hres rfl
        have hlt := hprog hne hcap
        by_cases hcmp : strcmp r.data response ≠ 0
        · rw [if_pos hcmp] at h
          obtain ⟨hf', hm', ⟨pre', hp'⟩, hb1, hb2⟩ := ih _ _ h
          have hT : r.state._Timeout = s._Timeout := by rw [hf]
          refine ⟨?_, by omega, ⟨pre ++ pre', ?_⟩, fun hb => ?_, fun hb => ?_⟩
          · rw [hf', hf]
          · rw [hp, hp', List.append_assoc]
          · have := hb1 hb; omega
          · rcases hb2 hb with h1 | h2
            · left; omega
            · right; rw [hT] at h2; omega
        · rw [if_neg hcmp] at h
          simp only [Option.some.injEq, Prod.mk.injEq] at h
          obtain ⟨rfl, rfl⟩ := h
          exact ⟨hf, hm, ⟨pre, hp⟩, fun _ => hlt, fun h => by simp at h⟩

/-- The `WaitForResponse` loop returns once the fuel covers the unread bytes and one
timeout. -/
theorem WaitForResponse.waitLoop_total (fuel : Nat) (response data : List Int) (s : State)
    (hf : s.rx.length + s._Timeout.toNat + 4 ≤ fuel) :
    ∃ r, WaitForResponse.loop fuel response data s = some r := by
  induction fuel generalizing data s with
  | zero => omega
  | succ fuel ih =>
    rw [WaitForResponse.loop]
    obtain ⟨r, hr⟩ := ReadLine_total fuel s data MODULE_RESPONSE_MAX_SIZE (by omega)
    rw [hr]
    simp only
    obtain ⟨hfr, hm, ⟨pre, hp⟩, hprog, hto⟩ := ReadLine_frame hr
    have hcap : (2 : Int) ≤ (MODULE_RESPONSE_MAX_SIZE : Nat) := by decide
    by_cases hres : r.result.toBool = false
    · rw [if_pos hres]; exact ⟨_, rfl⟩
    · rw [if_neg hres]
      have hne : r.result ≠ .Timeout := by
        intro h'; rw [h'] at hres; exact hres rfl
      have hlt := hprog hne hcap
      have hT : r.state._Timeout = s._Timeout := by rw [hfr]
      split_ifs
      · exact ih _ _ (by rw [hT]; omega)
      · exact ⟨_, rfl⟩

/-- The result of the `WaitForResponse` loop in terms of the lines `ReadLine` delivers. -/
theorem WaitForResponse.waitLoop_iff (fuel : Nat) (response data : List Int) (s : State)
    (b : Bool) (s1 : State) (h : WaitForResponse.loop fuel response data s = some (b, s1)) :
    b = true ↔ cstr response ∈ receivedLines fuel data s := by
  induction fuel generalizing data s with
  | zero => simp [WaitForResponse.loop] at h
  | succ fuel ih =>
    rw [WaitForResponse.loop] at h
    rw [receivedLines]
    match hr : ReadLine fuel s data MODULE_RESPONSE_MAX_SIZE with
    | none => simp [hr] at h
    | some r =>
      simp only [hr] at h ⊢
      by_cases hres : r.result.toBool = false
      · rw [if_pos hres] at h
        rw [if_pos hres]
        simp only [Option.some.injEq, Prod.mk.injEq] at h
        obtain ⟨rfl, rfl⟩ := h
        simp
      · rw [if_neg hres] at h
        rw [if_neg hres]
        by_cases hcmp : strcmp r.data response ≠ 0
        · rw [if_pos hcmp] at h
          have hne : cstr response ≠ cstr r.data := by
            intro he
            exact hcmp ((strcmp_eq_zero_iff _ _).2 he.symm)
          rw [List.mem_cons, ih _ _ h]
          exact ⟨fun hm => Or.inr hm, fun hm => hm.resolve_left hne⟩
        · rw [if_neg hcmp] at h
          simp only [Option.some.injEq, Prod.mk.injEq] at h
          obtain ⟨rfl, rfl⟩ := h
          have := (strcmp_eq_zero_iff _ _).1 (not_not.1 hcmp)
          simp [this]

/-- **C2 (as stated) fails**, in two ways.  (1) A 99-byte line followed by the line `OK`,
all bytes valid and already there: the waited-for line is in the stream and no timeout or
stream error precedes it, yet the overlong line makes `WaitForResponse("OK")` return
`false` at once (overflow), leaving `"\nOK\n"` unread.  (2) The single line `O K NUL X`:
it is not byte-for-byte equal to `OK`, yet `WaitForResponse("OK")` returns `true`, because
the comparison is `strcmp` and stops at the NUL. -/
theorem WaitForResponse_exact_line_counterexample :
    (OK ∈ streamLines [] (longLineThenOK.rx.map Prod.snd) ∧
      (∀ p ∈ longLineThenOK.rx, p.1 ≤ longLineThenOK.now ∧ 0 ≤ p.2) ∧
      WaitForResponse 200 OK longLineThenOK =
        some (false, { longLineThenOK with rx := [(0, 10), (0, 79), (0, 75), (0, 10)] })) ∧
    (OK ∉ streamLines [] (lineWithNul.rx.map Prod.snd) ∧
      (∀ p ∈ lineWithNul.rx, p.1 ≤ lineWithNul.now ∧ 0 ≤ p.2) ∧
      WaitForResponse 200 OK lineWithNul = some (true, { lineWithNul with rx := [] })) := by
  decide

/-- **C2 (amended).**  For every expected string and every incoming stream,
`WaitForResponse(expected)` returns, and it returns `true` if and only if one of the lines
that `ReadLine` delivers before its first failure (timeout, stream error, or overflow of the
100-byte buffer) is equal to `expected` as a C string, i.e. up to the first NUL; a delivered
line that differs is discarded and never ends the wait. -/
theorem WaitForResponse_iff_received (fuel : Nat) (expected : List Int) (s : State)
    (hf : s.rx.length + s._Timeout.toNat + 4 ≤ fuel) :
    ∃ b s1, WaitForResponse fuel expected s = some (b, s1) ∧
      (b = true ↔
        cstr expected ∈ receivedLines fuel (List.replicate MODULE_RESPONSE_MAX_SIZE 0) s) := by
  obtain ⟨⟨b, s1⟩, h⟩ := WaitForResponse.waitLoop_total fuel expected
    (List.replicate MODULE_RESPONSE_MAX_SIZE 0) s hf
  exact ⟨b, s1, h, WaitForResponse.waitLoop_iff _ _ _ _ _ _ h⟩

/-- Worked instance of the amended C2: the lines `X` and `OK`, waiting for `OK`. -/
theorem WaitForResponse_iff_received_witness :
    ∃ b s1, WaitForResponse 20 OK { demo with rx := [(0, 88), (1, 10), (2, 79), (2, 75), (3, 10)] }
        = some (b, s1) ∧
      (b = true ↔ cstr OK ∈ receivedLines 20 (List.replicate MODULE_RESPONSE_MAX_SIZE 0)
        { demo with rx := [(0, 88), (1, 10), (2, 79), (2, 75), (3, 10)] }) :=
  WaitForResponse_iff_received 20 OK
    { demo with rx := [(0, 88), (1, 10), (2, 79), (2, 75), (3, 10)] } (by decide)

/-- Frame and progress of `WaitForResponse(response)`. -/
theorem WaitForResponse_frame {fuel : Nat} {response : List Int} {s : State} {b : Bool}
    {s1 : State} (h : WaitForResponse fuel response s = some (b, s1)) :
    s1 = { s with now := s1.now, rx := s1.rx } ∧ s.now ≤ s1.now ∧
    (∃ pre, s.rx = pre ++ s1.rx) ∧
    (b = true → s1.rx.length < s.rx.length) ∧
    (b = false → s1.rx.length < s.rx.length ∨ (s1.now : Int) > s.now + s._Timeout) :=
  WaitForResponse.waitLoop_frame _ _ _ _ _ _ h

theorem WaitForResponse_total (fuel : Nat) (response : List Int) (s : State)
    (hf : s.rx.length + s._Timeout.toNat + 4 ≤ fuel) :
    ∃ r, WaitForResponse fuel response s = some r :=
  WaitForResponse.waitLoop_total _ _ _ _ hf

/-- What `WaitForResponse(response, timeout)` is: the plain wait run with the timeout
swapped in, followed by the restore. -/
theorem WaitForResponseT_eq {fuel : Nat} {response : List Int} {timeout : Int} {s : State}
    {b : Bool} {s2 : State} (h : WaitForResponseT fuel response timeout s = some (b, s2)) :
    ∃ s1, WaitForResponse fuel response (SetTimeout timeout s) = some (b, s1) ∧
      s2 = SetTimeout s._Timeout s1 := by
  unfold WaitForResponseT at h
  match hw : WaitForResponse fuel response (SetTimeout timeout s) with
  | none => simp [hw] at h
  | some (b1, s1) =>
    simp only [hw, Option.some.injEq, Prod.mk.injEq] at h
    obtain ⟨rfl, rfl⟩ := h
    exact ⟨s1, rfl, rfl⟩

/-- Frame and progress of `WaitForResponse(response, timeout)`: besides the clock and the
receive schedule it only appends the two `setTimeout` calls, and `_Timeout` is as before. -/
theorem WaitForResponseT_frame {fuel : Nat} {response : List Int} {timeout : Int} {s : State}
    {b : Bool} {s2 : State} (h : WaitForResponseT fuel response timeout s = some (b, s2)) :
    s2 = { s with now := s2.now, rx := s2.rx,
                  serialTimeouts := s.serialTimeouts ++ [timeout, s._Timeout] } ∧
    s.now ≤ s2.now ∧ (∃ pre, s.rx = pre ++ s2.rx) ∧
    (b = true → s2.rx.length < s.rx.length) ∧
    (b = false → s2.rx.length < s.rx.length ∨ (s2.now : Int) > s.now + timeout) := by
  obtain ⟨s1, hw, rfl⟩ := WaitForResponseT_eq h
  obtain ⟨hf, hm, hp, hb1, hb2⟩ := WaitForResponse_frame hw
  refine ⟨?_, hm, hp, hb1, hb2⟩
  rw [hf]
  simp [SetTimeout]

theorem WaitForResponseT_total (fuel : Nat) (response : List Int) (timeout : Int) (s : State)
    (hf : s.rx.length + timeout.toNat + 4 ≤ fuel) :
    ∃ r, WaitForResponseT fuel response timeout s = some r := by
  obtain ⟨⟨b, s1⟩, hw⟩ := WaitForResponse_total fuel response (SetTimeout timeout s) hf
  exact ⟨(b, SetTimeout s._Timeout s1), by simp [WaitForResponseT, hw]⟩

/-- Frame of the readiness loop: it changes only the clock, the receive schedule and the
list of `setTimeout` calls, whose last entry is the timeout in force before; and it gives up
only when its stopwatch reads at least 10000 ms. -/
theorem awaitReady_frame (fuel : Nat) (sw : Stopwatch) (s : State) (b : Bool) (s1 : State)
    (h : awaitReady fuel sw s = some (b, s1)) :
    s1 = { s with now := s1.now, rx := s1.rx, serialTimeouts := s1.serialTimeouts } ∧
    s.now ≤ s1.now ∧ (∃ pre, s.rx = pre ++ s1.rx) ∧
    s1.serialTimeouts.getLast? = some s._Timeout ∧
    (b = false → sw.ElapsedMilliseconds s1 ≥ 10000) := by
  induction fuel generalizing s with
  | zero => simp [awaitReady] at h
  | succ fuel ih =>
    rw [awaitReady] at h
    match hw : WaitForResponseT fuel RDY 100 s with
    | none => simp [hw] at h
    | some (true, s2) =>
      simp only [hw, Option.some.injEq, Prod.mk.injEq] at h
      obtain ⟨rfl, rfl⟩ := h
      obtain ⟨hf, hm, hp, _, _⟩ := WaitForResponseT_frame hw
      refine ⟨?_, hm, hp, ?_, fun h => by simp at h⟩
      · rw [hf]
      · rw [hf]; simp
    | some (false, s2) =>
      simp only [hw] at h
      obtain ⟨hf, hm, ⟨pre, hp⟩, _, _⟩ := WaitForResponseT_frame hw
      by_cases hel : sw.ElapsedMilliseconds s2 ≥ 10000
      · rw [if_pos hel] at h
        simp only [Option.some.injEq, Prod.mk.injEq] at h
        obtain ⟨rfl, rfl⟩ := h
        refine ⟨?_, hm, ⟨pre, hp⟩, ?_, fun _ => hel⟩
        · rw [hf]
        · rw [hf]; simp
      · rw [if_neg hel] at h
        obtain ⟨hf', hm', ⟨pre', hp'⟩, hl', hb'⟩ := ih s2 h
        have hT : s2._Timeout = s._Timeout := by rw [hf]
        refine ⟨?_, by omega, ⟨pre ++ pre', ?_⟩, ?_, hb'⟩
        · rw [hf', hf]
        · rw [hp, hp', List.append_assoc]
        · rw [hl', hT]

/-- The readiness loop returns once the fuel covers the unread bytes and the time left. -/
theorem awaitReady_total (fuel : Nat) (sw : Stopwatch) (s : State)
    (hf : 2 * s.rx.length + (sw.beginTime + 10000 - s.now) + 105 ≤ fuel) :
    ∃ r, awaitReady fuel sw s = some r := by
  induction fuel generalizing s with
  | zero => omega
  | succ fuel ih =>
    rw [awaitReady]
    obtain ⟨⟨b, s2⟩, hw⟩ := WaitForResponseT_total fuel RDY 100 s (by
      have : (100 : Int).toNat = 100 := rfl
      omega)
    rw [hw]
    cases b with
    | true => exact ⟨_, rfl⟩
    | false =>
      simp only
      obtain ⟨hfr, hm, ⟨pre, hp⟩, _, hprog⟩ := WaitForResponseT_frame hw
      by_cases hel : sw.ElapsedMilliseconds s2 ≥ 10000
      · rw [if_pos hel]; exact ⟨_, rfl⟩
      · rw [if_neg hel]
        apply ih
        simp only [Stopwatch.ElapsedMilliseconds] at hel
        have hlen : s2.rx.length ≤ s.rx.length := by rw [hp]; simp
        rcases hprog rfl with h1 | h2
        · omega
        · omega

theorem digitalReadStatus_eq (s : State) :
    digitalReadStatus s = (statusSample s 0, { s with statusReads := s.statusReads.drop 1 }) := by
  obtain ⟨a1, a2, a3, a4, a5, a6, reads, a8⟩ := s
  cases reads with
  | nil => simp [digitalReadStatus, statusSample]
  | cons v rest => simp [digitalReadStatus, statusSample]

theorem statusSample_drop (s : State) (now : Nat) (j : Nat) :
    statusSample { s with now := now, statusReads := s.statusReads.drop 1 } j
      = statusSample s (j + 1) := by
  obtain ⟨a1, a2, a3, a4, a5, a6, reads, a8⟩ := s
  cases reads with
  | nil => simp [statusSample]
  | cons v rest => simp [statusSample]

/-- What the busy loop of `TurnOn` does: it polls the status line every 100 ms; it is left
at the first poll that reads inactive, and gives up at the first poll that reads busy with
the stopwatch at 5000 ms or more.  `k` is the number of polls before the last one. -/
theorem awaitNotBusy_spec (fuel : Nat) (sw : Stopwatch) (s : State) (b : Bool) (s1 : State)
    (h : awaitNotBusy fuel sw s = some (b, s1)) :
    ∃ k, s1 = { s with now := s.now + 100 * k, statusReads := s.statusReads.drop (k + 1) } ∧
      (∀ j, j < k → statusSample s j ≠ 0 ∧ s.now + 100 * j - sw.beginTime < 5000) ∧
      (b = true → statusSample s k = 0) ∧
      (b = false → statusSample s k ≠ 0 ∧ s.now + 100 * k - sw.beginTime ≥ 5000) := by
  induction fuel generalizing s with
  | zero => simp [awaitNotBusy] at h
  | succ fuel ih =>
    rw [awaitNotBusy] at h
    simp only [IsBusy, digitalReadStatus_eq] at h
    by_cases hbusy : statusSample s 0 ≠ 0
    · simp only [hbusy, if_true, ne_eq, not_false_eq_true] at h
      by_cases hel : sw.ElapsedMilliseconds { s with statusReads := s.statusReads.drop 1 } ≥ 5000
      · rw [if_pos hel] at h
        simp only [Option.some.injEq, Prod.mk.injEq] at h
        obtain ⟨rfl, rfl⟩ := h
        refine ⟨0, by simp, fun j hj => by omega, fun h => by simp at h, fun _ => ⟨hbusy, ?_⟩⟩
        simpa [Stopwatch.ElapsedMilliseconds] using hel
      · rw [if_neg hel] at h
        obtain ⟨k, hs1, hpre, hb1, hb2⟩ := ih _ h
        simp only [delay] at hs1 hpre hb1 hb2
        simp only [Stopwatch.ElapsedMilliseconds] at hel
        refine ⟨k + 1, ?_, ?_, ?_, ?_⟩
        · rw [hs1]
          simp only [List.drop_drop, State.mk.injEq, and_true, true_and]
          constructor
          · omega
          · congr 1; omega
        · intro j hj
          cases j with
          | zero => exact ⟨hbusy, by simpa using hel⟩
          | succ j =>
            have := hpre j (by omega)
            rw [statusSample_drop] at this
            refine ⟨this.1, ?_⟩
            have h2 := this.2
            omega
        · intro hb
          have := hb1 hb
          rwa [statusSample_drop] at this
        · intro hb
          have := hb2 hb
          rw [statusSample_drop] at this
          refine ⟨this.1, ?_⟩
          have h2 := this.2
          omega
    · simp only [hbusy, if_false, Bool.false_eq_true] at h
      simp only [Option.some.injEq, Prod.mk.injEq] at h
      obtain ⟨rfl, rfl⟩ := h
      refine ⟨0, by simp, fun j hj => by omega, fun _ => not_not.1 hbusy, fun h => by simp at h⟩

/-- The busy loop returns once the fuel covers the time left on its stopwatch. -/
theorem awaitNotBusy_total (fuel : Nat) (sw : Stopwatch) (s : State)
    (hf : (sw.beginTime + 5000 - s.now) + 2 ≤ fuel) :
    ∃ r, awaitNotBusy fuel sw s = some r := by
  induction fuel generalizing s with
  | zero => omega
  | succ fuel ih =>
    rw [awaitNotBusy]
    split_ifs with h1 h2
    · exact ⟨_, rfl⟩
    · apply ih
      simp only [IsBusy, digitalReadStatus_eq, Stopwatch.ElapsedMilliseconds] at h2
      simp only [IsBusy, digitalReadStatus_eq, delay]
      omega
    · exact ⟨_, rfl⟩

/-- How `TurnOn` runs: the settle delay and the power-key pulse, then the busy loop, which
ends after `k ≤ 50` busy polls; either the next poll reads inactive and the readiness loop
follows, or `k = 50` and the 51st poll reads busy too and `TurnOn` returns `false`. -/
theorem TurnOn_cases (fuel : Nat) (s : State) (b : Bool) (s1 : State)
    (h : TurnOn fuel s = some (b, s1)) :
    (b = false ∧ s1 = afterPolls s 50 ∧ ∀ j, j ≤ 50 → statusSample s j ≠ 0) ∨
    (∃ k, k ≤ 50 ∧ (∀ j, j < k → statusSample s j ≠ 0) ∧ statusSample s k = 0 ∧
      awaitReady fuel (Stopwatch.Start (afterPolls s k)) (afterPolls s k) = some (b, s1)) := by
  unfold TurnOn at h
  simp only at h
  generalize hs4 : digitalWrite Pin.PWR_KEY_PIN LOW
    (delay 200 (digitalWrite Pin.PWR_KEY_PIN HIGH (delay 100 s))) = s4 at h
  have hs4now : s4.now = s.now + 300 := by
    rw [← hs4]; simp [digitalWrite, delay]
  have hsample : ∀ j, statusSample s4 j = statusSample s j := by
    intro j; rw [← hs4]; rfl
  have hafter : ∀ k, { s4 with now := s4.now + 100 * k
                               statusReads := s4.statusReads.drop (k + 1) } = afterPolls s k := by
    intro k; rw [← hs4]; simp [digitalWrite, delay, afterPolls, Nat.add_assoc]
  match hw : awaitNotBusy fuel (Stopwatch.Start s4) s4 with
  | none => simp [hw] at h
  | some (b5, s5) =>
    obtain ⟨k, hs5, hpre, hb1, hb2⟩ := awaitNotBusy_spec _ _ _ _ _ hw
    rw [hafter] at hs5
    simp only [Stopwatch.Start] at hpre hb2
    have hk : k ≤ 50 := by
      by_contra hgt
      have := (hpre 50 (by omega)).2
      omega
    cases b5 with
    | false =>
      simp only [hw, Option.some.injEq, Prod.mk.injEq] at h
      obtain ⟨rfl, rfl⟩ := h
      obtain ⟨hbusy, hel⟩ := hb2 rfl
      have hk50 : k = 50 := by omega
      subst hk50
      left
      refine ⟨rfl, hs5, fun j hj => ?_⟩
      rcases Nat.lt_or_eq_of_le hj with hlt | rfl
      · rw [← hsample]; exact (hpre j hlt).1
      · rw [← hsample]; exact hbusy
    | true =>
      simp only [hw] at h
      right
      refine ⟨k, hk, fun j hj => ?_, ?_, ?_⟩
      · rw [← hsample]; exact (hpre j hj).1
      · rw [← hsample]; exact hb1 rfl
      · rw [← hs5]; exact h

/-- `TurnOn` returns once the fuel covers both of its bounded loops. -/
theorem TurnOn_total (fuel : Nat) (s : State) (hf : 2 * s.rx.length + 10105 ≤ fuel) :
    ∃ r, TurnOn fuel s = some r := by
  unfold TurnOn
  simp only
  generalize hs4 : digitalWrite Pin.PWR_KEY_PIN LOW
    (delay 200 (digitalWrite Pin.PWR_KEY_PIN HIGH (delay 100 s))) = s4
  obtain ⟨⟨b5, s5⟩, hw⟩ := awaitNotBusy_total fuel (Stopwatch.Start s4) s4 (by
    simp only [Stopwatch.Start]; omega)
  rw [hw]
  cases b5 with
  | false => exact ⟨_, rfl⟩
  | true =>
    simp only
    obtain ⟨k, hs5, _⟩ := awaitNotBusy_spec _ _ _ _ _ hw
    apply awaitReady_total
    have hrx : s5.rx = s.rx := by rw [hs5, ← hs4]; rfl
    simp only [Stopwatch.Start, hrx]
    omega

/-- **C6.** If the status pin reads busy on every poll, `TurnOn` returns `false` when its
stopwatch reads 5000 ms (5300 ms after the call), having written the power-key pin `HIGH`
then `LOW` and used 51 status samples; everything else is as before the call: no byte has
been read from the transport, `_Timeout` is unchanged and no `setTimeout` call was made, so
`WaitForResponse` was never called.  Conversely every run of `TurnOn` either is that busy
timeout, or reaches the readiness loop right after a poll (one of the first 51) that read
the status pin as inactive. -/
theorem TurnOn_busy_timeout (fuel : Nat) (s : State) (hf : 2 * s.rx.length + 10105 ≤ fuel) :
    ((∀ k, statusSample s k ≠ 0) →
      TurnOn fuel s = some (false, afterPolls s 50) ∧
      (afterPolls s 50).now - (s.now + 300) ≥ 5000 ∧
      (afterPolls s 50).pinWrites = s.pinWrites ++ [(.PWR_KEY_PIN, HIGH), (.PWR_KEY_PIN, LOW)] ∧
      (afterPolls s 50).rx = s.rx ∧ (afterPolls s 50)._Timeout = s._Timeout ∧
      (afterPolls s 50).serialTimeouts = s.serialTimeouts ∧ (afterPolls s 50).tx = s.tx) ∧
    (∀ b s1, TurnOn fuel s = some (b, s1) →
      (b = false ∧ s1 = afterPolls s 50 ∧ ∀ j, j ≤ 50 → statusSample s j ≠ 0) ∨
      (∃ k, k ≤ 50 ∧ (∀ j, j < k → statusSample s j ≠ 0) ∧ statusSample s k = 0 ∧
        awaitReady fuel (Stopwatch.Start (afterPolls s k)) (afterPolls s k) = some (b, s1))) := by
  refine ⟨fun hbusy => ?_, fun b s1 h => TurnOn_cases fuel s b s1 h⟩
  obtain ⟨⟨b, s1⟩, h⟩ := TurnOn_total fuel s hf
  rcases TurnOn_cases fuel s b s1 h with ⟨rfl, rfl, _⟩ | ⟨k, _, _, hzero, _⟩
  · refine ⟨h, ?_, rfl, rfl, rfl, rfl, rfl⟩
    simp only [afterPolls]
    omega
  · exact absurd hzero (hbusy k)

/-- Worked instance of C6: a status pin that always reads 1. -/
theorem TurnOn_busy_timeout_witness :
    TurnOn 10200 demo = some (false, afterPolls demo 50) ∧
      (afterPolls demo 50).now - (demo.now + 300) ≥ 5000 ∧
      (afterPolls demo 50).pinWrites =
        demo.pinWrites ++ [(.PWR_KEY_PIN, HIGH), (.PWR_KEY_PIN, LOW)] ∧
      (afterPolls demo 50).rx = demo.rx ∧ (afterPolls demo 50)._Timeout = demo._Timeout ∧
      (afterPolls demo 50).serialTimeouts = demo.serialTimeouts ∧
      (afterPolls demo 50).tx = demo.tx :=
  (TurnOn_busy_timeout 10200 demo (by decide)).1 (fun k => by simp [statusSample, demo])

theorem cstr_AT_CMGS (dialNumber : List Int) : cstr (AT_CMGS dialNumber) = AT_CMGS dialNumber := by
  apply cstr_of_no_zero
  intro c hc
  unfold AT_CMGS at hc
  simp only [List.mem_append, List.mem_cons, List.mem_singleton, List.not_mem_nil, or_false] at hc
  rcases hc with (h | h) | h
  · rcases h with h | h | h | h | h | h | h | h | h <;> omega
  · unfold cstr at h
    simpa using (List.mem_takeWhile_imp h)
  · omega

/-- How `SendSMS` runs: three timed waits in a row, each attempted only when the one before
returned `true`, with the writes to the transport in between. -/
theorem SendSMS_script (fuel : Nat) (dialNumber message : List Int) (s : State)
    (hf : s.rx.length + 120004 ≤ fuel) :
    ∃ b1 s1, WaitForResponseT fuel OK 500 (WriteCommand AT_CMGF_1 s) = some (b1, s1) ∧
      s1.tx = s.tx ++ AT_CMGF_1 ++ [13] ∧
      (b1 = false → SendSMS fuel dialNumber message s = some (false, s1)) ∧
      (b1 = true →
        ∃ b2 s2, WaitForResponseT fuel [] 500 (WriteCommand (AT_CMGS dialNumber) s1)
            = some (b2, s2) ∧
          s2.tx = s.tx ++ AT_CMGF_1 ++ [13] ++ AT_CMGS dialNumber ++ [13] ∧
          (b2 = false → SendSMS fuel dialNumber message s = some (false, s2)) ∧
          (b2 = true →
            ∃ b3 s3, WaitForResponseT fuel OK 120000 (Write [26] (Write message s2))
                = some (b3, s3) ∧
              s3.tx = s.tx ++ AT_CMGF_1 ++ [13] ++ AT_CMGS dialNumber ++ [13]
                ++ cstr message ++ [26] ∧
              SendSMS fuel dialNumber message s = some (b3, s3))) := by
  have h500 : (500 : Int).toNat = 500 := rfl
  have h120 : (120000 : Int).toNat = 120000 := rfl
  obtain ⟨⟨b1, s1⟩, hw1⟩ := WaitForResponseT_total fuel OK 500 (WriteCommand AT_CMGF_1 s) (by
    simp only [WriteCommand, serialWriteChar, serialWriteStr]; omega)
  obtain ⟨hf1, _, ⟨pre1, hp1⟩, _, _⟩ := WaitForResponseT_frame hw1
  have htx1 : s1.tx = s.tx ++ AT_CMGF_1 ++ [13] := by
    rw [hf1]
    simp only [WriteCommand, serialWriteChar, serialWriteStr]
    rw [show cstr AT_CMGF_1 = AT_CMGF_1 by decide]
  have hlen1 : s1.rx.length ≤ s.rx.length := by
    have : (WriteCommand AT_CMGF_1 s).rx = s.rx := rfl
    rw [← this, hp1]; simp
  refine ⟨b1, s1, hw1, htx1, ?_, ?_⟩
  · rintro rfl
    simp [SendSMS, WriteCommandAndWaitForResponseT, hw1]
  · rintro rfl
    obtain ⟨⟨b2, s2⟩, hw2⟩ := WaitForResponseT_total fuel [] 500
      (WriteCommand (AT_CMGS dialNumber) s1) (by
        simp only [WriteCommand, serialWriteChar, serialWriteStr]; omega)
    obtain ⟨hf2, _, ⟨pre2, hp2⟩, _, _⟩ := WaitForResponseT_frame hw2
    have htx2 : s2.tx = s.tx ++ AT_CMGF_1 ++ [13] ++ AT_CMGS dialNumber ++ [13] := by
      rw [hf2]
      simp only [WriteCommand, serialWriteChar, serialWriteStr]
      rw [cstr_AT_CMGS, htx1]
    have hlen2 : s2.rx.length ≤ s.rx.length := by
      have : (WriteCommand (AT_CMGS dialNumber) s1).rx = s1.rx := rfl
      have : s2.rx.length ≤ s1.rx.length := by rw [← this, hp2]; simp
      omega
    refine ⟨b2, s2, hw2, htx2, ?_, ?_⟩
    · rintro rfl
      simp [SendSMS, WriteCommandAndWaitForResponseT, hw1, hw2]
    · rintro rfl
      obtain ⟨⟨b3, s3⟩, hw3⟩ := WaitForResponseT_total fuel OK 120000
        (Write [26] (Write message s2)) (by
          simp only [Write, serialWriteStr]; omega)
      obtain ⟨hf3, _, _, _, _⟩ := WaitForResponseT_frame hw3
      have htx3 : s3.tx = s.tx ++ AT_CMGF_1 ++ [13] ++ AT_CMGS dialNumber ++ [13]
          ++ cstr message ++ [26] := by
        rw [hf3]
        simp only [Write, serialWriteStr]
        rw [show cstr [26] = [26] by decide, htx2]
      refine ⟨b3, s3, hw3, htx3, ?_⟩
      cases b3 <;> simp [SendSMS, WriteCommandAndWaitForResponseT, hw1, hw2, hw3]

/-- The timed wait, spelled out: the plain wait runs with `timeout` as the active timeout
and leaves it so; the restore then puts back the value from before the call. -/
theorem WaitForResponseT_restores (fuel : Nat) (expected : List Int) (t : Int) (s : State)
    (hf : s.rx.length + t.toNat + 4 ≤ fuel) :
    ∃ b s1, WaitForResponse fuel expected (SetTimeout t s) = some (b, s1) ∧
      s1._Timeout = t ∧ s1.serialTimeouts = s.serialTimeouts ++ [t] ∧
      WaitForResponseT fuel expected t s = some (b, SetTimeout s._Timeout s1) ∧
      (SetTimeout s._Timeout s1)._Timeout = s._Timeout ∧
      (SetTimeout s._Timeout s1).serialTimeouts = s.serialTimeouts ++ [t, s._Timeout] := by
  obtain ⟨⟨b, s1⟩, hw⟩ := WaitForResponse_total fuel expected (SetTimeout t s) hf
  obtain ⟨hfr, _⟩ := WaitForResponse_frame hw
  have h1 : s1._Timeout = t := by rw [hfr]; rfl
  have h2 : s1.serialTimeouts = s.serialTimeouts ++ [t] := by rw [hfr]; rfl
  refine ⟨b, s1, hw, h1, h2, by simp [WaitForResponseT, hw], rfl, ?_⟩
  simp [SetTimeout, h2]

theorem Reset_total (fuel : Nat) (s : State) (hf : 2 * s.rx.length + 10105 ≤ fuel) :
    ∃ r, Reset fuel s = some r := by
  unfold Reset
  apply awaitReady_total
  simp only [Stopwatch.Start, delay, digitalWrite]
  omega

/-- `Reset` leaves everything but the clock, the receive schedule, the pin log and the list
of `setTimeout` calls as it was; the last `setTimeout` call restores the timeout. -/
theorem Reset_restores (fuel : Nat) (s : State) (b : Bool) (s1 : State)
    (h : Reset fuel s = some (b, s1)) :
    s1._Timeout = s._Timeout ∧ s1.serialTimeouts.getLast? = some s._Timeout ∧ s1.tx = s.tx := by
  unfold Reset at h
  obtain ⟨hf, _, _, hl, _⟩ := awaitReady_frame _ _ _ _ _ h
  refine ⟨?_, hl, ?_⟩
  · rw [hf]; rfl
  · rw [hf]; rfl

theorem TurnOn_restores (fuel : Nat) (s : State) (b : Bool) (s1 : State)
    (h : TurnOn fuel s = some (b, s1)) :
    s1._Timeout = s._Timeout ∧
    (s1.serialTimeouts = s.serialTimeouts ∨ s1.serialTimeouts.getLast? = some s._Timeout) := by
  rcases TurnOn_cases fuel s b s1 h with ⟨_, rfl, _⟩ | ⟨k, _, _, _, hr⟩
  · exact ⟨rfl, Or.inl rfl⟩
  · obtain ⟨hf, _, _, hl, _⟩ := awaitReady_frame _ _ _ _ _ hr
    refine ⟨?_, Or.inr hl⟩
    rw [hf]; rfl

theorem SendSMS_restores (fuel : Nat) (dialNumber message : List Int) (s : State)
    (hf : s.rx.length + 120004 ≤ fuel) :
    ∃ b s1, SendSMS fuel dialNumber message s = some (b, s1) ∧
      s1._Timeout = s._Timeout ∧ s1.serialTimeouts.getLast? = some s._Timeout := by
  obtain ⟨b1, s1, hw1, _, hF1, hT1⟩ := SendSMS_script fuel dialNumber message s hf
  obtain ⟨hf1, _⟩ := WaitForResponseT_frame hw1
  have e1 : s1._Timeout = s._Timeout := by rw [hf1]; rfl
  have l1 : s1.serialTimeouts.getLast? = some s._Timeout := by
    rw [hf1]; simp [WriteCommand, serialWriteChar, serialWriteStr]
  cases b1 with
  | false => exact ⟨false, s1, hF1 rfl, e1, l1⟩
  | true =>
    obtain ⟨b2, s2, hw2, _, hF2, hT2⟩ := hT1 rfl
    obtain ⟨hf2, _⟩ := WaitForResponseT_frame hw2
    have e2 : s2._Timeout = s._Timeout := by rw [hf2]; exact e1
    have l2 : s2.serialTimeouts.getLast? = some s._Timeout := by
      rw [hf2]; simp [WriteCommand, serialWriteChar, serialWriteStr, e1]
    cases b2 with
    | false => exact ⟨false, s2, hF2 rfl, e2, l2⟩
    | true =>
      obtain ⟨b3, s3, hw3, _, hS⟩ := hT2 rfl
      obtain ⟨hf3, _⟩ := WaitForResponseT_frame hw3
      have e3 : s3._Timeout = s._Timeout := by rw [hf3]; exact e2
      have l3 : s3.serialTimeouts.getLast? = some s._Timeout := by
        rw [hf3]; simp [Write, serialWriteStr, e2]
      exact ⟨b3, s3, hS, e3, l3⟩

/-- **C3.** For every state (prior timeout `s._Timeout`), override `t`, expected string and
incoming stream: `WaitForResponse(expected, t)` and
`WriteCommandAndWaitForResponse(command, expected, t)` return; the plain wait inside them
starts and ends with `_Timeout = t` (and `t` the value last passed to `setTimeout`); after
the call `_Timeout` and the value last passed to `setTimeout` are the prior timeout again,
whatever the result.  `Reset`, `TurnOn` and `SendSMS` return with `_Timeout` as before the
call, and the last `setTimeout` call they made (if any: `TurnOn` makes none when the busy
loop times out) passed that value. -/
theorem timeout_override_restored (fuel : Nat) (s : State)
    (expected command dialNumber message : List Int) (t : Int)
    (hf : 2 * s.rx.length + t.toNat + 120004 ≤ fuel) :
    (∃ b s1, WaitForResponse fuel expected (SetTimeout t s) = some (b, s1) ∧
      s1._Timeout = t ∧ s1.serialTimeouts = s.serialTimeouts ++ [t] ∧
      WaitForResponseT fuel expected t s = some (b, SetTimeout s._Timeout s1) ∧
      (SetTimeout s._Timeout s1)._Timeout = s._Timeout ∧
      (SetTimeout s._Timeout s1).serialTimeouts = s.serialTimeouts ++ [t, s._Timeout]) ∧
    (∃ b s1, WaitForResponse fuel expected (SetTimeout t (WriteCommand command s)) = some (b, s1) ∧
      s1._Timeout = t ∧ s1.serialTimeouts = s.serialTimeouts ++ [t] ∧
      WriteCommandAndWaitForResponseT fuel command expected t s
        = some (b, SetTimeout s._Timeout s1) ∧
      (SetTimeout s._Timeout s1)._Timeout = s._Timeout ∧
      (SetTimeout s._Timeout s1).serialTimeouts = s.serialTimeouts ++ [t, s._Timeout]) ∧
    (∃ b s1, Reset fuel s = some (b, s1) ∧ s1._Timeout = s._Timeout ∧
      s1.serialTimeouts.getLast? = some s._Timeout) ∧
    (∃ b s1, TurnOn fuel s = some (b, s1) ∧ s1._Timeout = s._Timeout ∧
      (s1.serialTimeouts = s.serialTimeouts ∨
        s1.serialTimeouts.getLast? = some s._Timeout)) ∧
    (∃ b s1, SendSMS fuel dialNumber message s = some (b, s1) ∧ s1._Timeout = s._Timeout ∧
      s1.serialTimeouts.getLast? = some s._Timeout) := by
  refine ⟨WaitForResponseT_restores fuel expected t s (by omega), ?_, ?_, ?_, ?_⟩
  · exact WaitForResponseT_restores fuel expected t (WriteCommand command s) (by
      simp only [WriteCommand, serialWriteChar, serialWriteStr]; omega)
  · obtain ⟨⟨b, s1⟩, h⟩ := Reset_total fuel s (by omega)
    obtain ⟨h1, h2, _⟩ := Reset_restores fuel s b s1 h
    exact ⟨b, s1, h, h1, h2⟩
  · obtain ⟨⟨b, s1⟩, h⟩ := TurnOn_total fuel s (by omega)
    obtain ⟨h1, h2⟩ := TurnOn_restores fuel s b s1 h
    exact ⟨b, s1, h, h1, h2⟩
  · exact SendSMS_restores fuel dialNumber message s (by omega)

/-- Worked instance of C3: prior timeout 3 ms, override 7 ms, the reply `OK` pending. -/
theorem timeout_override_restored_witness :
    (∃ b s1, WaitForResponse 130000 OK (SetTimeout 7 { demo with rx := [(0, 79), (0, 75), (0, 10)] })
        = some (b, s1) ∧
      s1._Timeout = 7 ∧ s1.serialTimeouts = [] ++ [7] ∧
      WaitForResponseT 130000 OK 7 { demo with rx := [(0, 79), (0, 75), (0, 10)] }
        = some (b, SetTimeout 3 s1) ∧
      (SetTimeout 3 s1)._Timeout = 3 ∧
      (SetTimeout 3 s1).serialTimeouts = [] ++ [7, 3]) ∧
    (∃ b s1, Reset 130000 { demo with rx := [(0, 79), (0, 75), (0, 10)] } = some (b, s1) ∧
      s1._Timeout = 3 ∧ s1.serialTimeouts.getLast? = some 3) :=
  ⟨(timeout_override_restored 130000 { demo with rx := [(0, 79), (0, 75), (0, 10)] }
      OK AT_CMGF_1 [49] [72] 7 (by decide)).1,
   (timeout_override_restored 130000 { demo with rx := [(0, 79), (0, 75), (0, 10)] }
      OK AT_CMGF_1 [49] [72] 7 (by decide)).2.2.1⟩

/-- **C7.** For every dial number, message and incoming stream, `SendSMS` runs its three
waits in order (`OK` within 500 ms, an empty line within 500 ms, `OK` within 120000 ms),
each only when the one before succeeded, and returns `true` exactly when all three did.
What it has written to the transport is `AT+CMGF=1` CR when the first wait fails;
`AT+CMGF=1` CR `AT+CMGS="<dialNumber>"` CR when the second fails; and `AT+CMGF=1` CR
`AT+CMGS="<dialNumber>"` CR `<message>` 0x1A, with nothing after the message or after 0x1A,
otherwise (also when only the final `OK` does not arrive and the result is `false`). -/
theorem SendSMS_aborts_at_failed_step (fuel : Nat) (dialNumber message : List Int) (s : State)
    (hf : s.rx.length + 120004 ≤ fuel) :
    ∃ b1 s1, WaitForResponseT fuel OK 500 (WriteCommand AT_CMGF_1 s) = some (b1, s1) ∧
      s1.tx = s.tx ++ AT_CMGF_1 ++ [13] ∧
      (b1 = false → SendSMS fuel dialNumber message s = some (false, s1)) ∧
      (b1 = true →
        ∃ b2 s2, WaitForResponseT fuel [] 500 (WriteCommand (AT_CMGS dialNumber) s1)
            = some (b2, s2) ∧
          s2.tx = s.tx ++ AT_CMGF_1 ++ [13] ++ AT_CMGS dialNumber ++ [13] ∧
          (b2 = false → SendSMS fuel dialNumber message s = some (false, s2)) ∧
          (b2 = true →
            ∃ b3 s3, WaitForResponseT fuel OK 120000 (Write [26] (Write message s2))
                = some (b3, s3) ∧
              s3.tx = s.tx ++ AT_CMGF_1 ++ [13] ++ AT_CMGS dialNumber ++ [13]
                ++ cstr message ++ [26] ∧
              SendSMS fuel dialNumber message s = some (b3, s3))) :=
  SendSMS_script fuel dialNumber message s hf

/-- Worked instance of C7: a transport that stays silent: the first wait fails after its
500 ms and only `AT+CMGF=1` CR has been written. -/
theorem SendSMS_aborts_at_failed_step_witness :
    ∃ s1, SendSMS 130000 [49] [72] demo = some (false, s1) ∧
      s1.tx = demo.tx ++ AT_CMGF_1 ++ [13] := by
  obtain ⟨b1, s1, hw1, htx, hF1, _⟩ :=
    SendSMS_aborts_at_failed_step 130000 [49] [72] demo (by decide)
  have hev : (WaitForResponseT 130000 OK 500 (WriteCommand AT_CMGF_1 demo)).map Prod.fst
      = some false := by decide
  rw [hw1] at hev
  simp only [Option.map_some', Option.some.injEq] at hev
  exact ⟨s1, hF1 hev, htx⟩

theorem take_succ_set (data : List Int) (i : Nat) (v : Int) (h : i < data.length) :
    (data.set i v).take (i + 1) = data.take i ++ [v] := by
  rw [List.set_eq_take_append_cons_drop, if_pos h, List.take_append_eq_append_take]
  simp [List.length_take, Nat.min_eq_left h.le, List.take_take]

/-- The `ReadLine` loop reads no cell at or beyond `dataIndex`: two buffers of the same
size that agree below `dataIndex` give the same result, the same final index, the same
state, and the same buffer content up to and including the terminator. -/
theorem ReadLine.loop_buffer (fuel : Nat) (s : State) (data data1 : List Int) (dataSize : Int)
    (dataIndex : Nat) (stores : List Nat) (hlen : data.length = data1.length)
    (htake : data.take dataIndex = data1.take dataIndex)
    (hidx : (dataIndex : Int) ≤ dataSize - 1) (hcap : dataSize ≤ data.length) :
    (ReadLine.loop fuel s data dataSize dataIndex stores).map ReadLineReturn.visible =
      (ReadLine.loop fuel s data1 dataSize dataIndex stores).map ReadLineReturn.visible := by
  induction fuel generalizing s data data1 dataIndex stores with
  | zero => simp [ReadLine.loop]
  | succ fuel ih =>
    have hi : dataIndex < data.length := by omega
    have hi1 : dataIndex < data1.length := by omega
    have hset : ∀ v, ((data.set dataIndex v).take (dataIndex + 1), (data.set dataIndex v).length)
        = ((data1.set dataIndex v).take (dataIndex + 1), (data1.set dataIndex v).length) := by
      intro v
      rw [take_succ_set _ _ _ hi, take_succ_set _ _ _ hi1, htake]
      simp [hlen]
    rw [ReadLine.loop, ReadLine.loop]
    by_cases hlt : (dataIndex : Int) < dataSize - 1
    · rw [if_pos hlt, if_pos hlt]
      match awaitAvailable fuel (Stopwatch.Start s) s with
      | none => rfl
      | some (false, s1) =>
        simp only [Option.map_some', ReadLineReturn.visible, Option.some.injEq, Prod.mk.injEq,
          true_and]
        simpa using hset 0
      | some (true, s1) =>
        simp only
        split_ifs
        · simp only [Option.map_some', ReadLineReturn.visible, Option.some.injEq,
            Prod.mk.injEq, true_and]
          simpa using hset 0
        · exact ih _ _ _ _ _ hlen htake hidx hcap
        · simp only [Option.map_some', ReadLineReturn.visible, Option.some.injEq,
            Prod.mk.injEq, true_and]
          simpa using hset 0
        · apply ih
          · simp [hlen]
          · have := hset ((read s1).1 % 256)
            simp only [Prod.mk.injEq] at this
            exact this.1
          · push_cast; omega
          · simpa using hcap
    · rw [if_neg hlt, if_neg hlt]
      have hlt2 : (dataIndex : Int) < dataSize := by omega
      rw [if_pos hlt2, if_pos hlt2]
      simp only [Option.map_some', ReadLineReturn.visible, Option.some.injEq, Prod.mk.injEq,
        true_and]
      simpa using hset 0

theorem cstr_take_of_terminated (l : List Int) (k : Nat) (h : l[k]? = some 0) :
    cstr l = cstr (l.take (k + 1)) := by
  induction l generalizing k with
  | nil => simp at h
  | cons x xs ih =>
    cases k with
    | zero =>
      simp only [List.getElem?_cons_zero, Option.some.injEq] at h
      subst h
      simp [cstr]
    | succ k =>
      simp only [List.getElem?_cons_succ] at h
      have := ih k h
      simp only [cstr] at this
      simp only [cstr, List.take_succ_cons, List.takeWhile_cons]
      rw [this]

/-- The `WaitForResponse` loop gives the same result whatever its 100-byte buffer holds at
the start. -/
theorem WaitForResponse.waitLoop_buffer (fuel : Nat) (response data data1 : List Int)
    (s : State) (hlen : data.length = data1.length)
    (hcap : MODULE_RESPONSE_MAX_SIZE ≤ data.length) :
    WaitForResponse.loop fuel response data s = WaitForResponse.loop fuel response data1 s := by
  induction fuel generalizing data data1 s with
  | zero => rfl
  | succ fuel ih =>
    rw [WaitForResponse.loop, WaitForResponse.loop]
    have hb := ReadLine.loop_buffer fuel s data data1 MODULE_RESPONSE_MAX_SIZE 0 [] hlen rfl
      (by decide) (by exact_mod_cast hcap)
    change (ReadLine fuel s data MODULE_RESPONSE_MAX_SIZE).map ReadLineReturn.visible =
      (ReadLine fuel s data1 MODULE_RESPONSE_MAX_SIZE).map ReadLineReturn.visible at hb
    match hr : ReadLine fuel s data MODULE_RESPONSE_MAX_SIZE,
        hr1 : ReadLine fuel s data1 MODULE_RESPONSE_MAX_SIZE with
    | none, none => rfl
    | none, some r1 => simp [hr, hr1] at hb
    | some r, none => simp [hr, hr1] at hb
    | some r, some r1 =>
      simp only [hr, hr1, Option.map_some', ReadLineReturn.visible, Option.some.injEq,
        Prod.mk.injEq] at hb
      obtain ⟨hres, hk, _, hst, htk, hl⟩ := hb
      simp only
      have hz := ((ReadLine.loop_sound _ _ _ _ _ _ _ hr).bounds (by decide)
        (by exact_mod_cast hcap)).2.2.2.2
      have hz1 := ((ReadLine.loop_sound _ _ _ _ _ _ _ hr1).bounds (by decide)
        (by rw [← hlen]; exact_mod_cast hcap)).2.2.2.2
      have hlr := ((ReadLine.loop_sound _ _ _ _ _ _ _ hr).bounds (by decide)
        (by exact_mod_cast hcap)).2.2.1
      have hc : cstr r.data = cstr r1.data := by
        rw [cstr_take_of_terminated _ _ hz, cstr_take_of_terminated _ _ hz1, htk]
      have hcmp : strcmp r.data response = 0 ↔ strcmp r1.data response = 0 := by
        rw [strcmp_eq_zero_iff, strcmp_eq_zero_iff, hc]
      rw [← hres, ← hst]
      by_cases h1 : r.result.toBool = false
      · rw [if_pos h1, if_pos h1]
      · rw [if_neg h1, if_neg h1]
        by_cases h2 : strcmp r.data response ≠ 0
        · rw [if_pos h2, if_pos (fun h => h2 (hcmp.2 h))]
          exact ih _ _ _ hl (by rw [hlr]; exact hcap)
        · rw [if_neg h2, if_neg (fun h => h (hcmp.1 (not_not.1 h2)))]

/-- `WaitForResponse` does not depend on the initial content of its local buffer. -/
theorem WaitForResponse_buffer (fuel : Nat) (response data : List Int) (s : State)
    (hlen : data.length = MODULE_RESPONSE_MAX_SIZE) :
    WaitForResponse.loop fuel response data s = WaitForResponse fuel response s := by
  unfold WaitForResponse
  exact WaitForResponse.waitLoop_buffer fuel response data _ s (by simp [hlen]) (by omega)

/-- Where a stretch of the schedule is not chained in time there is a first byte that comes
too late: the bytes before it are chained, and it arrives more than `timeout + 1` ms after
the last of them was read. -/
theorem inTimeChain_break (timeout : Int) (now : Nat) (l : List (Nat × Int))
    (h : ¬ inTimeChain timeout now l) :
    ∃ pre t c rest, l = pre ++ (t, c) :: rest ∧ inTimeChain timeout now pre ∧
      clockAfter now pre < t ∧ (clockAfter now pre : Int) + timeout + 1 < t := by
  induction l generalizing now with
  | nil => exact absurd trivial h
  | cons p ps ih =>
    obtain ⟨t, c⟩ := p
    by_cases hin : t ≤ now ∨ (t : Int) ≤ now + timeout + 1
    · have hrest : ¬ inTimeChain timeout (max now t) ps := fun hc => h ⟨hin, hc⟩
      obtain ⟨pre, t1, c1, rest, hl, hc, h1, h2⟩ := ih (max now t) hrest
      refine ⟨(t, c) :: pre, t1, c1, rest, by rw [hl]; rfl, ⟨hin, hc⟩, ?_, ?_⟩
      · simpa [clockAfter] using h1
      · simpa [clockAfter] using h2
    · refine ⟨[], t, c, ps, rfl, trivial, ?_, ?_⟩
      · simp only [clockAfter, List.foldl_nil]; omega
      · simp only [clockAfter, List.foldl_nil]; omega

/-- In a stretch that ends in a byte other than a carriage return, every proper initial
part keeps fewer bytes than the whole. -/
theorem kept_lt_of_last (pre pre1 pre2 : List (Nat × Int)) (p : Nat × Int)
    (hp : pre = pre1 ++ p :: pre2) (hlast : ∀ q, pre.getLast? = some q → q.2 ≠ 13) :
    (kept pre1).length < (kept pre).length := by
  have hlen : (kept pre).length = (kept pre1).length + (kept (p :: pre2)).length := by
    rw [hp, kept_append]; simp
  have hpos : 0 < (kept (p :: pre2)).length := by
    have hne : p :: pre2 ≠ [] := by simp
    have hl : pre.getLast? = some ((p :: pre2).getLast hne) := by
      rw [hp, List.getLast?_append_of_ne_nil _ hne, List.getLast?_eq_getLast _ hne]
    have h13 := hlast _ hl
    have : ((p :: pre2).getLast hne).2 ∈ kept (p :: pre2) := by
      unfold kept
      simp only [List.mem_filter, List.mem_map]
      exact ⟨⟨_, List.getLast_mem hne, rfl⟩, by simpa using h13⟩
    exact List.length_pos_of_mem this
  omega

/-- A run over a stretch of valid bytes chained in time that fills the buffer ends in the
overflow return right after the byte that filled it. -/
theorem LineRun.overflow_of_chain {dataSize : Int} {s : State} {data : List Int}
    {dataIndex : Nat} {stores : List Nat} {r : ReadLineReturn}
    (h : LineRun dataSize s data dataIndex stores r)
    (pre rest : List (Nat × Int)) (hrx : s.rx = pre ++ rest)
    (hchain : inTimeChain s._Timeout s.now pre)
    (hpre : ∀ p ∈ pre, 0 ≤ p.2 ∧ p.2 ≠ 10)
    (hlast : ∀ p, pre.getLast? = some p → p.2 ≠ 13)
    (hfill : ((dataIndex + (kept pre).length : Nat) : Int) = dataSize - 1) :
    r = ⟨.Overflow,
      (storeAt data dataIndex ((kept pre).map (fun c => c % 256))).set
        (dataIndex + (kept pre).length) 0,
      dataIndex + (kept pre).length,
      stores ++ List.range' dataIndex (kept pre).length ++ [dataIndex + (kept pre).length],
      { s with now := clockAfter s.now pre, rx := rest }⟩ := by
  have hroom : ∀ pre1 p pre2, pre = pre1 ++ p :: pre2 →
      ((dataIndex + (kept pre1).length : Nat) : Int) < dataSize - 1 := by
    intro pre1 p pre2 hp
    have := kept_lt_of_last pre pre1 pre2 p hp hlast
    omega
  exact (h.skip_chain pre rest hrx hchain hpre hroom).inv_full hfill

/-- **C4 (as stated) fails.**  Capacity 3, timeout 3 ms, the bytes `A` at ms 0 and `B` at
ms 100: the sequence has no carriage return, no line feed and no invalid read, and its
2 bytes are `capacity - 1`, so the claim predicts `Overflow`; `ReadLine` stores `A`, waits
4 ms for the next byte and returns `Timeout` with `B` unread. -/
theorem ReadLine_no_terminator_counterexample :
    (∀ p ∈ ({ demo with rx := [(0, 65), (100, 66)] } : State).rx,
      0 ≤ p.2 ∧ p.2 ≠ 13 ∧ p.2 ≠ 10) ∧
    (3 : Int) - 1 ≤ (({ demo with rx := [(0, 65), (100, 66)] } : State).rx.length : Int) ∧
    ReadLine 10 { demo with rx := [(0, 65), (100, 66)] } [7, 7, 7] 3 =
      some ⟨.Timeout, [65, 0, 7], 1, [0, 1], { demo with now := 4, rx := [(100, 66)] }⟩ := by
  decide

/-- **C4 (amended).**  For every capacity `dataSize ≥ 1` and every finite incoming byte
sequence with no carriage return, no line feed and no invalid read, whatever its arrival
times, `ReadLine` returns and never returns `Complete`; it returns `Overflow` exactly when
the sequence has at least `dataSize - 1` bytes and each of the first `dataSize - 1` arrives
at most `_Timeout + 1` ms after the byte before it was read (the first: after the call),
and `Timeout` in every other case. -/
theorem ReadLine_no_terminator (s : State) (data : List Int) (dataSize : Int) (fuel : Nat)
    (hcap : 1 ≤ dataSize)
    (hbytes : ∀ p ∈ s.rx, 0 ≤ p.2 ∧ p.2 ≠ 13 ∧ p.2 ≠ 10)
    (hf : s.rx.length + s._Timeout.toNat + 3 ≤ fuel) :
    ∃ r, ReadLine fuel s data dataSize = some r ∧ r.result ≠ .Complete ∧
      (r.result = .Overflow ↔
        dataSize - 1 ≤ s.rx.length ∧
        inTimeChain s._Timeout s.now (s.rx.take (dataSize - 1).toNat)) ∧
      (r.result ≠ .Overflow → r.result = .Timeout) := by
  obtain ⟨r, hr⟩ := ReadLine.loop_total fuel dataSize s data 0 [] hf
  refine ⟨r, hr, ?_⟩
  have hrun := ReadLine.loop_sound _ _ _ _ _ _ _ hr
  refine ⟨hrun.not_complete (fun p hp => (hbytes p hp).2.2), ?_⟩
  have hsplit : s.rx = s.rx.take (dataSize - 1).toNat ++ s.rx.drop (dataSize - 1).toNat :=
    (List.take_append_drop _ _).symm
  have hmem : ∀ p ∈ s.rx.take (dataSize - 1).toNat, p ∈ s.rx :=
    fun p hp => List.mem_of_mem_take hp
  by_cases hchain : inTimeChain s._Timeout s.now (s.rx.take (dataSize - 1).toNat)
  · by_cases hlen : dataSize - 1 ≤ s.rx.length
    · -- enough bytes, all in time: the first `dataSize - 1` of them fill the buffer
      have hk : (kept (s.rx.take (dataSize - 1).toNat)).length = (dataSize - 1).toNat := by
        rw [kept_length_of_no_cr _ (fun p hp => (hbytes p (hmem p hp)).2.1), List.length_take]
        omega
      have hres := hrun.overflow_of_chain _ _ hsplit hchain
        (fun p hp => ⟨(hbytes p (hmem p hp)).1, (hbytes p (hmem p hp)).2.2⟩)
        (fun p hp => (hbytes p (hmem p (List.mem_of_getLast?_eq_some hp))).2.1)
        (by rw [hk]; push_cast; omega)
      rw [hres]
      exact ⟨⟨fun _ => ⟨hlen, hchain⟩, fun _ => rfl⟩, fun h => absurd rfl h⟩
    · -- too few bytes: all are read, then the stream stays silent
      have htake : s.rx.take (dataSize - 1).toNat = s.rx :=
        List.take_of_length_le (by omega)
      rw [htake] at hchain
      have hk := kept_length_le s.rx
      obtain ⟨hres, _, _⟩ := hrun.timeout_of_chain s.rx [] (by simp) hchain
        (fun p hp => ⟨(hbytes p hp).1, (hbytes p hp).2.2⟩) (by push_cast; omega)
        (by intro t c rest1 h; simp at h)
      rw [hres]
      exact ⟨⟨fun h => by simp at h, fun h => absurd h.1 hlen⟩, fun _ => rfl⟩
  · -- a byte among the first `dataSize - 1` comes too late
    obtain ⟨pre, t, c, rest1, hl, hc, h1, h2⟩ := inTimeChain_break _ _ _ hchain
    have hlenpre : pre.length < (dataSize - 1).toNat := by
      have h3 : (s.rx.take (dataSize - 1).toNat).length ≤ (dataSize - 1).toNat :=
        List.length_take_le _ _
      rw [hl] at h3
      simp only [List.length_append, List.length_cons] at h3
      omega
    have hk := kept_length_le pre
    have hmem1 : ∀ p ∈ pre, p ∈ s.rx := fun p hp =>
      hmem p (by rw [hl]; exact List.mem_append_left _ hp)
    obtain ⟨hres, _, _⟩ := hrun.timeout_of_chain pre
      ((t, c) :: rest1 ++ s.rx.drop (dataSize - 1).toNat)
      (by rw [← List.append_assoc, ← hl]; exact hsplit) hc
      (fun p hp => ⟨(hbytes p (hmem1 p hp)).1, (hbytes p (hmem1 p hp)).2.2⟩)
      (by push_cast; omega)
      (by
        intro t1 c1 rest2 h
        simp only [List.cons_append, List.cons.injEq, Prod.mk.injEq] at h
        obtain ⟨⟨rfl, rfl⟩, _⟩ := h
        exact ⟨h1, h2⟩)
    rw [hres]
    exact ⟨⟨fun h => by simp at h, fun h => absurd h.2 hchain⟩, fun _ => rfl⟩

/-- Worked instances of the amended C4, capacity 3, timeout 3 ms: two bytes 4 ms apart fill
the buffer, although the second comes later than the timeout after the call. -/
theorem ReadLine_no_terminator_witness :
    ∃ r, ReadLine 10 { demo with rx := [(4, 65), (8, 66)] } [7, 7, 7] 3 = some r ∧
      r.result ≠ .Complete ∧ r.result = .Overflow := by
  obtain ⟨r, h1, h2, h3, _⟩ := ReadLine_no_terminator { demo with rx := [(4, 65), (8, 66)] }
    [7, 7, 7] 3 10 (by decide) (by decide) (by decide)
  exact ⟨r, h1, h2, h3.2 ⟨by decide, by decide⟩⟩

/-- **C10 (as stated) fails.**  Capacity 3, timeout 3 ms, the bytes `A` at ms 0, `B` and the
line feed at ms 100: the stream supplies `capacity - 1` bytes other than carriage return
before any line feed, so the claim predicts `Overflow` with the buffer `A B NUL`;
`ReadLine` stores `A`, waits 4 ms and returns `Timeout` with the buffer `A NUL` and `B`
unread. -/
theorem ReadLine_overflow_counterexample :
    ((kept [(0, 65), (100, 66)]).length : Int) = 3 - 1 ∧
    (∀ p ∈ [((0 : Nat), (65 : Int)), (100, 66)], 0 ≤ p.2 ∧ p.2 < 256 ∧ p.2 ≠ 10) ∧
    ReadLine 10 { demo with rx := [(0, 65), (100, 66)] ++ [(100, 10)] } [7, 7, 7] 3 =
      some ⟨.Timeout, [65, 0, 7], 1, [0, 1],
        { demo with now := 4, rx := [(100, 66), (100, 10)] }⟩ := by
  decide

/-- **C10 (amended).**  For every capacity `dataSize` (at least 1, as `hfill` implies) and
every schedule `pre ++ rest` in which `pre` is the shortest stretch supplying
`dataSize - 1` bytes other than carriage return (so it is empty or ends in such a byte), all
valid, none a line feed: if each byte of `pre` arrives at most `_Timeout + 1` ms after the
byte before it was read (the first: after the call), `ReadLine` returns `Overflow`, the
buffer holds exactly those `dataSize - 1` bytes followed by NUL, and the stream has been
consumed up to and including the byte that filled the buffer: everything behind it (`rest`,
even when it starts with the line feed) is left unread for the next `ReadLine`; if some
byte of `pre` comes later than that, `ReadLine` returns `Timeout` instead. -/
theorem ReadLine_overflow_leaves_rest (s : State) (data : List Int) (dataSize : Int)
    (pre rest : List (Nat × Int)) (fuel : Nat)
    (hlen : dataSize ≤ data.length)
    (hrx : s.rx = pre ++ rest)
    (hbytes : ∀ p ∈ pre, 0 ≤ p.2 ∧ p.2 < 256 ∧ p.2 ≠ 10)
    (hlast : ∀ p, pre.getLast? = some p → p.2 ≠ 13)
    (hfill : ((kept pre).length : Int) = dataSize - 1)
    (hf : s.rx.length + s._Timeout.toNat + 3 ≤ fuel) :
    ∃ r, ReadLine fuel s data dataSize = some r ∧
      (inTimeChain s._Timeout s.now pre →
        r.result = .Overflow ∧ r.result.toBool = false ∧
        r.data = kept pre ++ 0 :: data.drop ((kept pre).length + 1) ∧
        r.state.rx = rest) ∧
      (¬ inTimeChain s._Timeout s.now pre → r.result = .Timeout) := by
  obtain ⟨r, hr⟩ := ReadLine.loop_total fuel dataSize s data 0 [] hf
  refine ⟨r, hr, ?_, ?_⟩
  · intro hchain
    have hrun := ReadLine.loop_sound _ _ _ _ _ _ _ hr
    have hres := hrun.overflow_of_chain pre rest hrx hchain
      (fun p hp => ⟨(hbytes p hp).1, (hbytes p hp).2.2⟩) hlast (by push_cast; omega)
    rw [hres]
    refine ⟨rfl, rfl, ?_, rfl⟩
    simp only [Nat.zero_add]
    rw [kept_map_emod pre (fun p hp => ⟨(hbytes p hp).1, (hbytes p hp).2.1⟩)]
    have h1 := storeAt_append data 0 (kept pre) 0
    simp only [Nat.zero_add] at h1
    rw [← h1, storeAt_eq data 0 (kept pre ++ [0]) (by simp; omega)]
    simp
  · intro hchain
    have hrun := ReadLine.loop_sound _ _ _ _ _ _ _ hr
    obtain ⟨pre1, t, c, rest1, hl, hc, h1, h2⟩ := inTimeChain_break _ _ _ hchain
    have hk := kept_lt_of_last pre pre1 rest1 (t, c) hl hlast
    have hmem1 : ∀ p ∈ pre1, p ∈ pre := fun p hp => by
      rw [hl]; exact List.mem_append_left _ hp
    obtain ⟨hres, _, _⟩ := hrun.timeout_of_chain pre1 ((t, c) :: rest1 ++ rest)
      (by rw [hrx, hl]; simp) hc
      (fun p hp => ⟨(hbytes p (hmem1 p hp)).1, (hbytes p (hmem1 p hp)).2.2⟩)
      (by push_cast; omega)
      (by
        intro t1 c1 rest2 h
        simp only [List.cons_append, List.cons.injEq, Prod.mk.injEq] at h
        obtain ⟨⟨rfl, rfl⟩, _⟩ := h
        exact ⟨h1, h2⟩)
    exact hres

/-- Worked instance of the amended C10: capacity 3, timeout 3 ms and the line `"AB\n"` with
`A` at ms 4 and the rest at ms 8: the buffer fills and the line feed stays unread. -/
theorem ReadLine_overflow_leaves_rest_witness :
    ∃ r, ReadLine 10 { demo with rx := [(4, 65), (8, 66), (8, 10)] } [7, 7, 7] 3 = some r ∧
      r.result = .Overflow ∧ r.result.toBool = false ∧
      r.data = kept [(4, 65), (8, 66)] ++ 0 :: List.drop ((kept [(4, 65), (8, 66)]).length + 1)
        [7, 7, 7] ∧
      r.state.rx = [(8, 10)] := by
  obtain ⟨r, h1, h2, _⟩ := ReadLine_overflow_leaves_rest
    { demo with rx := [(4, 65), (8, 66), (8, 10)] } [7, 7, 7] 3
    [(4, 65), (8, 66)] [(8, 10)] 10 (by decide) rfl (by decide) (by decide) (by decide)
    (by decide)
  exact ⟨r, h1, h2 (by decide)⟩

end WioLTE
